import Mathlib

/-!
# Verification of the Randcast mock controller (`crates/randcast-mock-demo/src/contract/controller.rs`)

This file contains a shallow embedding of the controller contract of the
BLS-DKG demo repository, together with theorems settling a list of claims
about it.

Modelling conventions:

* Rust `HashMap<K, V>` is modelled as an association list `HMap K V` with
  insertion-order iteration (one legitimate iteration order of a Rust
  `HashMap`, whose order is unspecified).
* `Vec<u8>` payloads are `Bytes := List Nat`.
* The external cryptographic library (`bincode::deserialize::<G1>`,
  `SigScheme::verify`, partial-signature decoding) and the per-process
  seeded `DefaultHasher` are abstracted into an `Env` record of functions;
  every concrete `Env` is a legitimate instance of the platform behaviour.
* Rust panics (`unwrap` on a missing key, `usize` subtraction underflow in a
  debug build) are modelled as a `PanicReason` outcome that aborts the
  transaction; a panicking execution yields no reachable post-state.
  Errors returned with `?` keep all mutations performed before the error,
  exactly as in the Rust source.
* `contract/coordinator.rs` and `dkg_core::primitives::minimum_threshold`
  are not available under `src/`; they are modelled from the spec (their
  definitions below carry a `Modelled from the spec:` doc comment).
-/

namespace Randcast

abbrev Bytes := List Nat

/-! ## Association-list model of Rust HashMap -/

abbrev HMap (K V : Type) := List (K × V)

namespace HMap

/-- Lookup of a key, first match (keys are unique by construction of `insert`). -/
def get? {K V : Type} [DecidableEq K] : HMap K V → K → Option V
  | [], _ => none
  | (k', v) :: t, k => if k' = k then some v else get? t k

def contains {K V : Type} [DecidableEq K] (m : HMap K V) (k : K) : Bool :=
  (get? m k).isSome

/-- `HashMap::insert`: replaces the value in place when the key exists,
appends otherwise (iteration order of a new key = insertion order). -/
def insert {K V : Type} [DecidableEq K] : HMap K V → K → V → HMap K V
  | [], k, v => [(k, v)]
  | (k', v') :: t, k, v => if k' = k then (k, v) :: t else (k', v') :: insert t k v

/-- `HashMap::remove` (drops every entry with the key; at most one exists). -/
def erase {K V : Type} [DecidableEq K] : HMap K V → K → HMap K V
  | [], _ => []
  | (k', v') :: t, k => if k' = k then erase t k else (k', v') :: erase t k

def keys {K V : Type} (m : HMap K V) : List K := m.map Prod.fst

def vals {K V : Type} (m : HMap K V) : List V := m.map Prod.snd

end HMap

/-! ## External environment (BLS library, platform hash) -/

/-- The collaborators the controller treats as external: the per-process
seeded 64-bit `DefaultHasher` (on `usize` seeds and on signature byte
vectors) and the BLS pairing library. Any concrete `Env` is a legitimate
instance of the unspecified platform behaviour. -/
structure Env where
  /-- `Controller::calculate_hash` on a `usize` value. -/
  hashNat : Nat → Nat
  /-- `Controller::calculate_hash` on a `Vec<u8>` value (the signature). -/
  hashBytes : Bytes → Nat
  /-- `bincode::deserialize::<G1>(bytes).is_ok()`. -/
  g1Valid : Bytes → Bool
  /-- `SigScheme::verify(pubkey, message, signature).is_ok()`, with the
  public key kept in serialized form. -/
  verify : Bytes → String → Bytes → Bool
  /-- `bincode::deserialize::<Eval<Vec<u8>>>(bytes).ok().map(|e| e.value)`. -/
  evalDecode : Bytes → Option Bytes

/-! ## Errors and panics -/

inductive CoordinatorError where
  | AlreadyStarted
  | DKGEnded
  | NotRegistered
  | SharesExisted
  | ResponsesExisted
  | JustificationsExisted
  deriving DecidableEq, Repr

inductive ControllerError where
  | NoTaskAvailable
  | TaskNotFound
  | TaskStillExclusive
  | NotFromCommitter
  | GroupNotExisted
  | GroupActivated
  | CoordinatorNotExisted
  | CoordinatorNotEnded
  | CoordinatorEpochObsolete (latest : Nat)
  | NodeNotExisted
  | NodeExisted
  | NodeActivated
  | NodeNotAvailable (blockHeight : Nat)
  | RewardRecordNotExisted
  | GroupEpochObsolete (latest : Nat)
  | CommitCacheExisted
  | VerifiableSignatureRewardAsCommitterExisted
  | VerifiableSignatureRewardNotExisted
  | SignatureRewardVerifiedSuccessfully
  | PublicKeyBadFormat
  | BLSVerifyFailed
  | CoordinatorErr (e : CoordinatorError)
  | ParticipantNotExisted
  | NoVaildGroup
  deriving DecidableEq, Repr

/-- Reasons a transaction aborts the whole process in the Rust source:
`unwrap()` on a missing value, `usize` subtraction underflow (debug build),
staking subtraction underflow in `slash_node`, or a loop that would not
terminate. -/
inductive PanicReason where
  | unwrapFailed
  | arithUnderflow
  | stakingUnderflow
  | fuelExhausted
  deriving DecidableEq, Repr

/-! ## Constants (`controller.rs` lines 16-44) -/

def NODE_STAKING_AMOUNT : Nat := 50000
def REWARD_PER_SIGNATURE : Nat := 50
def DISQUALIFIED_NODE_PENALTY : Nat := 1000
def COORDINATOR_STATE_TRIGGER_REWARD : Nat := 100
def COMMITTER_REWARD_PER_SIGNATURE : Nat := 100
def COMMITTER_PENALTY_PER_SIGNATURE : Nat := 1000
def CHALLENGE_REWARD_PER_SIGNATURE : Nat := 300
def DEFAULT_MINIMUM_THRESHOLD : Nat := 3
def DEFAULT_COMMITTERS_SIZE : Nat := 3
def DEFAULT_DKG_PHASE_DURATION : Nat := 30
def GROUP_MAX_CAPACITY : Nat := 10
def EXPECTED_GROUP_SIZE : Nat := 5
def PENDING_BLOCK_AFTER_QUIT : Nat := 100
def SIGNATURE_TASK_EXCLUSIVE_WINDOW : Nat := 10
def SIGNATURE_REWARDS_VALIDATION_WINDOW : Nat := 50

/-- Modelled from the spec: `dkg_core::primitives::minimum_threshold` is an
external dependency not under `src/`; the spec fixes
`threshold = max(DEFAULT_MINIMUM_THRESHOLD, ⌈size/2⌉+1)`, so the minimum
threshold of `n` participants is `⌈n/2⌉ + 1`. -/
def minimum_threshold (n : Nat) : Nat := (n + 1) / 2 + 1

/-! ## Data model (`controller.rs` lines 46-168) -/

structure Node where
  id_address : String
  id_public_key : Bytes
  state : Bool
  pending_until_block : Nat
  staking : Nat
  deriving DecidableEq, Repr

structure Member where
  index : Nat
  id_address : String
  partial_public_key : Bytes
  deriving DecidableEq, Repr

structure CommitResult where
  group_epoch : Nat
  public_key : Bytes
  disqualified_nodes : List String
  deriving DecidableEq, Repr

structure CommitCache where
  commit_result : CommitResult
  partial_public_key : Bytes
  deriving DecidableEq, Repr

structure Group where
  index : Nat
  epoch : Nat
  capacity : Nat
  size : Nat
  threshold : Nat
  state : Bool
  public_key : Bytes
  members : HMap String Member
  committers : List String
  commit_cache : HMap String CommitCache
  deriving DecidableEq, Repr

structure SignatureTask where
  index : Nat
  message : String
  group_index : Nat
  assignment_block_height : Nat
  deriving DecidableEq, Repr

structure DKGTask where
  group_index : Nat
  epoch : Nat
  size : Nat
  threshold : Nat
  members : HMap String Nat
  assignment_block_height : Nat
  coordinator_address : String
  deriving DecidableEq, Repr

structure SignatureReward where
  signature_task : SignatureTask
  expiration_block_height : Nat
  committer : String
  group : Group
  partial_signatures : HMap String Bytes
  deriving DecidableEq, Repr

/-- Modelled from the spec: `contract/coordinator.rs` is not under `src/`.
Per spec §4.2 the Coordinator is a per-group phase timer started at a block
`start_block` with three phase windows of `phase_duration` blocks each,
advanced by `mine`, holding the ordered participant list. The bulletin-board
buckets are kept but unused by the controller operations modelled here. -/
structure Coordinator where
  epoch : Nat
  threshold : Nat
  phase_duration : Nat
  started : Bool
  start_block : Nat
  block_height : Nat
  participants : List (String × Nat × Bytes)
  shares : HMap String Bytes
  responses : HMap String Bytes
  justifications : HMap String Bytes
  deriving DecidableEq, Repr

namespace Coordinator

/-- Modelled from the spec: fresh, not-started coordinator. -/
def new (epoch threshold duration : Nat) : Coordinator :=
  { epoch := epoch, threshold := threshold, phase_duration := duration,
    started := false, start_block := 0, block_height := 0,
    participants := [], shares := [], responses := [], justifications := [] }

/-- Modelled from the spec: `start` is one-shot (`AlreadyStarted`) and
records the current block and the ordered participant list. -/
def start (co : Coordinator) (currentBlock : Nat)
    (members : List (String × Nat × Bytes)) :
    Except CoordinatorError Coordinator :=
  if co.started then .error .AlreadyStarted
  else .ok { co with started := true, start_block := currentBlock,
                     block_height := currentBlock, participants := members }

/-- Modelled from the spec: `mine` advances the coordinator's block height. -/
def mine (co : Coordinator) (blockNumber : Nat) : Coordinator :=
  { co with block_height := co.block_height + blockNumber }

/-- Modelled from the spec: the numeric phase, or `DKGEnded` once all phase
windows (shares, responses, justifications) have elapsed. -/
def in_phase (co : Coordinator) : Except CoordinatorError Nat :=
  if co.block_height ≤ co.start_block + co.phase_duration then .ok 1
  else if co.block_height ≤ co.start_block + 2 * co.phase_duration then .ok 2
  else if co.block_height ≤ co.start_block + 3 * co.phase_duration then .ok 3
  else .error .DKGEnded

end Coordinator

structure Controller where
  block_height : Nat
  epoch : Nat
  signature_count : Nat
  last_output : Nat
  last_group_index : Nat
  groups : HMap Nat Group
  nodes : HMap String Node
  rewards : HMap String Nat
  pending_signature_tasks : HMap Nat SignatureTask
  verifiable_signature_rewards : HMap Nat SignatureReward
  dkg_task : Option DKGTask
  signature_task : Option SignatureTask
  coordinators : HMap Nat (String × Coordinator)
  controller_address : String
  deriving DecidableEq, Repr

namespace Controller

def new (initialEntropy : Nat) (controllerAddress : String) : Controller :=
  { block_height := 100, epoch := 1, signature_count := 0,
    last_output := initialEntropy, last_group_index := 0,
    groups := [], nodes := [], rewards := [],
    pending_signature_tasks := [], verifiable_signature_rewards := [],
    dkg_task := none, signature_task := none, coordinators := [],
    controller_address := controllerAddress }

end Controller

/-! ## Execution model

A transaction yields either a panic (process abort, no post-state), or an
`Except ControllerError α` outcome together with the post-state; an error
outcome keeps all mutations performed before the error, as Rust's `?` does. -/

abbrev CRes (α : Type) := Except PanicReason (Except ControllerError α × Controller)

def retC {α : Type} (a : α) (c : Controller) : CRes α := .ok (.ok a, c)

def errC {α : Type} (e : ControllerError) (c : Controller) : CRes α := .ok (.error e, c)

def crash {α : Type} (p : PanicReason) : CRes α := .error p

def bindC {α β : Type} (m : CRes α) (f : α → Controller → CRes β) : CRes β :=
  match m with
  | .error p => .error p
  | .ok (.error e, c) => .ok (.error e, c)
  | .ok (.ok a, c) => f a c

/-- `unwrap()` on an `Option`: panics when the value is missing. -/
def unwrapC {α : Type} (o : Option α) (c : Controller) : CRes α :=
  match o with
  | some a => retC a c
  | none => crash .unwrapFailed

/-- Sequential `for` loop with `?` propagation. -/
def forC {α : Type} (f : α → Controller → CRes Unit) :
    List α → Controller → CRes Unit
  | [], c => retC () c
  | a :: t, c => bindC (f a c) (fun _ c' => forC f t c')

/-! ## Deterministic selection (`controller.rs` lines 1242-1272) -/

/-- `qualified_indices.iter().max()` (the `.unwrap()` caller guards emptiness). -/
def listMax (l : List Nat) : Nat := l.foldl max 0

/-- The `while !qualified_indices.contains(&index)` search of
`map_to_qualified_indices`, with fuel; the fuel is provably sufficient
(`mapGo_hits`), so exhaustion models non-termination and never occurs. -/
def mapGo (qs : List Nat) (m : Nat) : Nat → Nat → Option Nat
  | 0, _ => none
  | fuel + 1, index => if index ∈ qs then some index else mapGo qs m fuel ((index + 1) % (m + 1))

/-- `map_to_qualified_indices` (`controller.rs` lines 1264-1272): increment
`index` modulo `max+1` until it is a member of `qualified_indices`;
`none` models the `unwrap` panic on an empty slice. -/
def map_to_qualified_indices (index : Nat) (qualified_indices : List Nat) : Option Nat :=
  match qualified_indices with
  | [] => none
  | _ => mapGo qualified_indices (listMax qualified_indices) (listMax qualified_indices + 2 + index) index

/-- The `while count > 0 && !vec.is_empty()` loop of
`choose_randomly_from_indices`, recursing on `count`. -/
def chooseGo (env : Env) : Nat → Nat → List Nat → Option (List Nat)
  | _, 0, _ => some []
  | _, _, [] => some []
  | hash, count + 1, v :: t =>
    let hash' := env.hashNat hash
    match map_to_qualified_indices (hash' % ((v :: t).length + 1)) (v :: t) with
    | none => none
    | some index =>
      match chooseGo env hash' count (List.filter (fun x => x ≠ index) (v :: t)) with
      | none => none
      | some rest => some (index :: rest)

/-- `choose_randomly_from_indices` (`controller.rs` lines 1242-1262). -/
def choose_randomly_from_indices (env : Env) (seed : Nat) (indices : List Nat)
    (count : Nat) : Option (List Nat) :=
  chooseGo env seed count indices

/-! ## Strictly-majority-identical commitment (`controller.rs` lines 294-324) -/

/-- One step of building `HashMap<CommitResult, Vec<String>>`:
`map.entry(result).or_insert(vec![]).push(member)`. -/
def addCommit (acc : List (CommitResult × List String)) (r : CommitResult)
    (m : String) : List (CommitResult × List String) :=
  match acc with
  | [] => [(r, [m])]
  | (r', ms) :: t => if r' = r then (r', ms ++ [m]) :: t else (r', ms) :: addCommit t r m

/-- Partition the commit cache into classes of structurally equal
`CommitResult`s, each carrying the committing members. -/
def groupCommits (cache : HMap String CommitCache) : List (CommitResult × List String) :=
  cache.foldl (fun acc p => addCommit acc p.2.commit_result p.1) []

/-- The `fold` of `get_strictly_majority_identical_commitment_result`:
`Greater` takes the new class and sets the strict flag; `Equal` keeps the
accumulator and clears the flag; `Less` keeps the accumulator. -/
def majorityStep (acc : Option CommitResult × List String × Bool)
    (cl : CommitResult × List String) : Option CommitResult × List String × Bool :=
  if acc.2.1.length < cl.2.length then (some cl.1, cl.2, true)
  else if cl.2.length = acc.2.1.length then (acc.1, acc.2.1, false)
  else acc

def majorityFold (classes : List (CommitResult × List String)) :
    Option CommitResult × List String × Bool :=
  classes.foldl majorityStep (none, [], false)

/-- `get_strictly_majority_identical_commitment_result` on a group's commit
cache (the surrounding `self.groups.get(..).unwrap()` is handled at call
sites). -/
def get_strictly_majority_identical_commitment_result (cache : HMap String CommitCache) :
    Option CommitResult × List String :=
  let r := majorityFold (groupCommits cache)
  if r.2.2 then (r.1, r.2.1) else (none, [])

/-! ## Internal group management (`controller.rs` lines 326-662) -/

def valid_group_indices (c : Controller) : List Nat :=
  ((HMap.vals c.groups).filter (fun g => g.state)).map (fun g => g.index)

def add_group (c : Controller) : Nat × Controller :=
  let group_index := c.groups.length + 1
  let g : Group :=
    { index := group_index, epoch := 0, capacity := GROUP_MAX_CAPACITY, size := 0,
      threshold := DEFAULT_MINIMUM_THRESHOLD, state := false, public_key := [],
      members := [], committers := [], commit_cache := [] }
  (group_index, { c with groups := HMap.insert c.groups group_index g })

/-- Rust `Iterator::min_by` on `(index, size)` pairs: the first element with
the minimal size (in iteration order). -/
def minBySize (hd : Nat × Nat) (t : List (Nat × Nat)) : Nat × Nat :=
  t.foldl (fun acc x => if x.2 < acc.2 then x else acc) hd

def find_available_group (c : Controller) : (Nat × Bool) × Controller :=
  match HMap.vals c.groups with
  | [] => let r := add_group c; ((r.1, false), r.2)
  | g :: t =>
    let m := minBySize (g.index, g.size) (t.map (fun g' => (g'.index, g'.size)))
    let valid_group_count := (valid_group_indices c).length
    if (valid_group_count < EXPECTED_GROUP_SIZE ∨ m.2 = GROUP_MAX_CAPACITY)
        ∧ valid_group_count = c.groups.length then
      let r := add_group c; ((r.1, true), r.2)
    else ((m.1, false), c)

/-- Collect `(id_address, member_index, id_public_key)` for every member,
`none` when a member has no registered node (`unwrap` panic). -/
def memberTriples (nodes : HMap String Node) :
    List (String × Member) → Option (List (String × Nat × Bytes))
  | [] => some []
  | (a, m) :: t =>
    match HMap.get? nodes a with
    | none => none
    | some nd => (memberTriples nodes t).map (fun r => (a, m.index, nd.id_public_key) :: r)

/-- Stable insertion into a list sorted by member index (`sort_by` on the
index component). -/
def insertByIndex (x : String × Nat × Bytes) :
    List (String × Nat × Bytes) → List (String × Nat × Bytes)
  | [] => [x]
  | y :: t => if x.2.1 ≤ y.2.1 then x :: y :: t else y :: insertByIndex x t

def sortByIndex (l : List (String × Nat × Bytes)) : List (String × Nat × Bytes) :=
  l.foldr insertByIndex []

/-- `emit_group_event` (`controller.rs` lines 350-406). -/
def emit_group_event (_env : Env) (group_index : Nat) (c : Controller) : CRes Unit :=
  let c1 := { c with epoch := c.epoch + 1 }
  match HMap.get? c1.groups group_index with
  | none => crash .unwrapFailed
  | some g =>
    let g1 := { g with epoch := g.epoch + 1, commit_cache := [], committers := [] }
    let c2 := { c1 with groups := HMap.insert c1.groups group_index g1 }
    let co := Coordinator.new g1.epoch g1.threshold DEFAULT_DKG_PHASE_DURATION
    match memberTriples c2.nodes g1.members with
    | none => crash .unwrapFailed
    | some triples =>
      match Coordinator.start co c2.block_height (sortByIndex triples) with
      | .error e => errC (.CoordinatorErr e) c2
      | .ok co' =>
        let co_entry := ("0xcoordinator" ++ toString g1.index, co')
        let c3 := { c2 with
          coordinators := HMap.insert c2.coordinators g1.index co_entry }
        let mm := g1.members.foldl
          (fun acc p => HMap.insert acc p.1 p.2.index) ([] : HMap String Nat)
        let task : DKGTask :=
          { group_index := g1.index, epoch := g1.epoch, size := g1.size,
            threshold := g1.threshold, members := mm,
            assignment_block_height := c3.block_height,
            coordinator_address := c3.controller_address }
        retC () { c3 with dkg_task := some task }

/-- `add_to_group` (`controller.rs` lines 508-535): the new member gets index
`group.size`, then size is incremented and the threshold recomputed. -/
def add_to_group (env : Env) (node_id_address : String) (group_index : Nat)
    (emit_event_instantly : Bool) (c : Controller) : CRes Unit :=
  match HMap.get? c.groups group_index with
  | none => crash .unwrapFailed
  | some g =>
    let member : Member :=
      { index := g.size, id_address := node_id_address, partial_public_key := [] }
    let g1 := { g with size := g.size + 1,
                       members := HMap.insert g.members node_id_address member,
                       threshold := max DEFAULT_MINIMUM_THRESHOLD (minimum_threshold (g.size + 1)) }
    let c1 := { c with groups := HMap.insert c.groups group_index g1 }
    if 3 ≤ g1.size ∧ emit_event_instantly then emit_group_event env group_index c1
    else retC () c1

/-- `remove_from_group` (`controller.rs` lines 537-564): returns whether the
group still needs rebalancing (dropped below 3 but non-empty). -/
def remove_from_group (env : Env) (node_id_address : String) (group_index : Nat)
    (emit_event_instantly : Bool) (c : Controller) : CRes Bool :=
  match HMap.get? c.groups group_index with
  | none => crash .unwrapFailed
  | some g =>
    if g.size = 0 then crash .arithUnderflow
    else
      let g1 := { g with size := g.size - 1,
                         members := HMap.erase g.members node_id_address,
                         threshold := max DEFAULT_MINIMUM_THRESHOLD (minimum_threshold (g.size - 1)) }
      if g1.size < 3 then
        retC (decide (0 < g1.size)) { c with groups := HMap.insert c.groups group_index { g1 with state := false } }
      else
        let c1 := { c with groups := HMap.insert c.groups group_index g1 }
        if emit_event_instantly then
          bindC (emit_group_event env group_index c1) (fun _ c2 => retC false c2)
        else retC false c1

/-- `rebalance_group` (`controller.rs` lines 452-506). -/
def rebalance_group (env : Env) (group_a_index group_b_index : Nat) (c : Controller) : CRes Bool :=
  match HMap.get? c.groups group_a_index, HMap.get? c.groups group_b_index with
  | none, _ => crash .unwrapFailed
  | _, none => crash .unwrapFailed
  | some ga0, some gb0 =>
    let ga := if gb0.size > ga0.size then gb0 else ga0
    let gb := if gb0.size > ga0.size then ga0 else gb0
    let ai := if gb0.size > ga0.size then group_b_index else group_a_index
    let bi := if gb0.size > ga0.size then group_a_index else group_b_index
    let expected_size_to_move := ga.size - (ga.size + gb.size) / 2
    if ga.size - expected_size_to_move < DEFAULT_MINIMUM_THRESHOLD then retC false c
    else
      let qualified_indices := (HMap.vals ga.members).map (fun m => m.index)
      match choose_randomly_from_indices env c.last_output qualified_indices
          expected_size_to_move with
      | none => crash .unwrapFailed
      | some members_to_move =>
        let index_member_map := ga.members.foldl
          (fun acc p => HMap.insert acc p.2.index p.1) ([] : HMap Nat String)
        bindC
          (forC (fun m c' =>
            bindC (unwrapC (HMap.get? index_member_map m) c') (fun addr c1 =>
              bindC (remove_from_group env addr ai false c1) (fun _ c2 =>
                add_to_group env addr bi false c2))) members_to_move c)
          (fun _ c1 =>
            bindC (emit_group_event env ai c1) (fun _ c2 =>
              bindC (emit_group_event env bi c2) (fun _ c3 => retC true c3)))

/-- The `try_for_each` pattern of `node_join` / `freeze_node`: run
`rebalance_group index target` on each index until one returns `Ok(true)`
(result `true` = some rebalance succeeded); a `?`-style error inside
`rebalance_group` is swallowed by the `if let` and iteration continues with
the partially mutated state, as in the Rust source. -/
def rebalanceLoop (env : Env) (target : Nat) :
    List Nat → Controller → CRes Bool
  | [], c => retC false c
  | i :: t, c =>
    match rebalance_group env i target c with
    | .error p => .error p
    | .ok (.ok true, c') => retC true c'
    | .ok (.ok false, c') => rebalanceLoop env target t c'
    | .ok (.error _, c') => rebalanceLoop env target t c'

/-- `node_join` (`controller.rs` lines 326-348). -/
def node_join (env : Env) (id_address : String) (c : Controller) : CRes Bool :=
  let r := find_available_group c
  bindC (add_to_group env id_address r.1.1 true r.2) (fun _ c1 =>
    let group_indices := (HMap.keys c1.groups).filter (fun i => i ≠ r.1.1)
    if r.1.2 then
      bindC (rebalanceLoop env r.1.1 group_indices c1) (fun _ c2 => retC true c2)
    else retC true c1)

/-- The evacuation loop of `freeze_node`: move every remaining member to an
available group (events deferred), collecting the involved group indices
(`HashSet` modelled with first-insertion order). -/
def evacLoop (env : Env) :
    List String → List Nat → Controller → CRes (List Nat)
  | [], acc, c => retC acc c
  | a :: t, acc, c =>
    let r := find_available_group c
    bindC (add_to_group env a r.1.1 false r.2) (fun _ c1 =>
      evacLoop env t (if r.1.1 ∈ acc then acc else acc ++ [r.1.1]) c1)

/-- The final part of `freeze_node` (`controller.rs` lines 644-654): set the
node inactive and extend its pending block. -/
def freezeFinish (id_address : String) (pending_block : Nat) (c : Controller) : CRes Unit :=
  match HMap.get? c.nodes id_address with
  | none => crash .unwrapFailed
  | some nd =>
    let pending :=
      if nd.pending_until_block > c.block_height then nd.pending_until_block + pending_block
      else c.block_height + pending_block
    let nd1 := { nd with state := false, pending_until_block := pending }
    retC () { c with nodes := HMap.insert c.nodes id_address nd1 }

/-- `freeze_node` (`controller.rs` lines 584-655). -/
def freeze_node (env : Env) (id_address : String) (pending_block : Nat)
    (handle_group : Bool) (c : Controller) : CRes Unit :=
  if handle_group then
    match (HMap.vals c.groups).find? (fun g => HMap.contains g.members id_address) with
    | none => freezeFinish id_address pending_block c
    | some g =>
      let group_index := g.index
      bindC (remove_from_group env id_address group_index true c) (fun need_rebalance c1 =>
        let group_indices := (HMap.keys c1.groups).filter (fun i => i ≠ group_index)
        if need_rebalance then
          bindC (rebalanceLoop env group_index group_indices c1) (fun broke c2 =>
            if broke then freezeFinish id_address pending_block c2
            else
              match HMap.get? c2.groups group_index with
              | none => crash .unwrapFailed
              | some g2 =>
                bindC (evacLoop env (HMap.keys g2.members) [] c2) (fun invovled c3 =>
                  bindC (forC (fun i c' => emit_group_event env i c') invovled c3)
                    (fun _ c4 => freezeFinish id_address pending_block c4)))
        else freezeFinish id_address pending_block c1)
  else freezeFinish id_address pending_block c

/-- `slash_node` (`controller.rs` lines 566-582): the staking subtraction has
no lower-bound guard; staking below the penalty panics (debug underflow). -/
def slash_node (env : Env) (id_address : String) (staking_penalty pending_block : Nat)
    (handle_group : Bool) (c : Controller) : CRes Unit :=
  match HMap.get? c.nodes id_address with
  | none => crash .unwrapFailed
  | some nd =>
    if nd.staking < staking_penalty then crash .stakingUnderflow
    else
      let nd1 := { nd with staking := nd.staking - staking_penalty }
      let c1 := { c with nodes := HMap.insert c.nodes id_address nd1 }
      if nd1.staking < NODE_STAKING_AMOUNT ∨ 0 < pending_block then
        freeze_node env id_address pending_block handle_group c1
      else retC () c1

/-! ## Transactions (`controller.rs` lines 690-1203) -/

/-- `node_register` (`controller.rs` lines 691-716). -/
def node_register (env : Env) (id_address : String) (id_public_key : Bytes)
    (c : Controller) : CRes Unit :=
  if HMap.contains c.nodes id_address then errC .NodeExisted c
  else
    let node : Node :=
      { id_address := id_address, id_public_key := id_public_key, state := true,
        pending_until_block := 0, staking := NODE_STAKING_AMOUNT }
    let c1 := { c with nodes := HMap.insert c.nodes id_address node,
                       rewards := HMap.insert c.rewards id_address 0 }
    bindC (node_join env id_address c1) (fun _ c2 => retC () c2)

/-- `node_activate` (`controller.rs` lines 718-739). The Rust source refills
the staking and re-joins but never sets `node.state` back to `true`. -/
def node_activate (env : Env) (id_address : String) (c : Controller) : CRes Unit :=
  match HMap.get? c.nodes id_address with
  | none => errC .NodeNotExisted c
  | some nd =>
    if nd.state then errC .NodeActivated c
    else if nd.pending_until_block > c.block_height then
      errC (.NodeNotAvailable nd.pending_until_block) c
    else
      let nd1 := { nd with staking := NODE_STAKING_AMOUNT }
      let c1 := { c with nodes := HMap.insert c.nodes id_address nd1 }
      bindC (node_join env id_address c1) (fun _ c2 => retC () c2)

/-- `check_verifiable_rewards_expiration` (`controller.rs` lines 1196-1203). -/
def check_verifiable_rewards_expiration (c : Controller) : CRes Unit :=
  let kept := c.verifiable_signature_rewards.filter
    (fun p => c.block_height ≤ p.2.expiration_block_height)
  retC () { c with verifiable_signature_rewards := kept }

/-- `node_quit` (`controller.rs` lines 741-761). -/
def node_quit (env : Env) (id_address : String) (c : Controller) : CRes Unit :=
  if ¬ HMap.contains c.nodes id_address then errC .NodeNotExisted c
  else
    bindC (check_verifiable_rewards_expiration c) (fun _ c1 =>
      if (HMap.vals c1.verifiable_signature_rewards).any
          (fun vsr => vsr.committer = id_address) then
        errC .VerifiableSignatureRewardAsCommitterExisted c1
      else
        bindC (freeze_node env id_address PENDING_BLOCK_AFTER_QUIT true c1)
          (fun _ c2 => retC () c2))

/-- `claim` (`controller.rs` lines 763-786). -/
def claim (id_address : String) (_reward_address : String) (token_amount : Nat)
    (c : Controller) : CRes Unit :=
  match HMap.get? c.rewards id_address with
  | none => errC .RewardRecordNotExisted c
  | some actual_amount =>
    let operate_amount := if token_amount ≤ actual_amount then token_amount else actual_amount
    let rewards1 := HMap.insert c.rewards id_address (actual_amount - operate_amount)
    retC () { c with rewards := rewards1 }

/-- The partial-public-key writing loop of the `commit_dkg` finalization:
for every cached commit of a non-disqualified member, write the cached
partial public key into the member record (`unwrap` panics when the cached
committer is not a member). -/
def writePartials (disq : List String) :
    List (String × CommitCache) → HMap String Member → Option (HMap String Member)
  | [], mem => some mem
  | (a, cache) :: t, mem =>
    if disq.contains a then writePartials disq t mem
    else
      match HMap.get? mem a with
      | none => none
      | some m =>
        writePartials disq t
          (HMap.insert mem a { m with partial_public_key := cache.partial_public_key })

/-- Lookup of every sampled committer index in the index-to-member map
(`unwrap` panics when an index has no member). -/
def lookupAll (m : HMap Nat String) : List Nat → Option (List String)
  | [] => some []
  | i :: t =>
    match HMap.get? m i with
    | none => none
    | some a => (lookupAll m t).map (fun r => a :: r)

/-- `commit_dkg` (`controller.rs` lines 788-905). -/
def commit_dkg (env : Env) (id_address : String) (group_index group_epoch : Nat)
    (public_key partial_public_key : Bytes) (disqualified_nodes : List String)
    (c : Controller) : CRes Unit :=
  if ¬ HMap.contains c.groups group_index then errC .GroupNotExisted c
  else if ¬ env.g1Valid public_key then errC .PublicKeyBadFormat c
  else if ¬ env.g1Valid partial_public_key then errC .PublicKeyBadFormat c
  else
    match HMap.get? c.groups group_index with
    | none => crash .unwrapFailed
    | some g =>
      if ¬ HMap.contains g.members id_address then errC .ParticipantNotExisted c
      else if g.epoch ≠ group_epoch then errC (.GroupEpochObsolete g.epoch) c
      else
        let commit_result : CommitResult :=
          { group_epoch := group_epoch, public_key := public_key,
            disqualified_nodes := disqualified_nodes }
        let commit_cache : CommitCache :=
          { commit_result := commit_result, partial_public_key := partial_public_key }
        if HMap.contains g.commit_cache id_address then errC .CommitCacheExisted c
        else
          let g1 := { g with commit_cache := HMap.insert g.commit_cache id_address commit_cache }
          let c1 := { c with groups := HMap.insert c.groups group_index g1 }
          if g1.state then
            match HMap.get? g1.members id_address with
            | none => crash .unwrapFailed
            | some mem =>
              let mem1 := { mem with partial_public_key := partial_public_key }
              let g2 := { g1 with members := HMap.insert g1.members id_address mem1 }
              retC () { c1 with groups := HMap.insert c1.groups group_index g2 }
          else
            match get_strictly_majority_identical_commitment_result g1.commit_cache with
            | (none, _) => retC () c1
            | (some identical_commit, majority_members) =>
              if g1.threshold ≤ majority_members.length then
                let disq := identical_commit.disqualified_nodes
                if g1.size < disq.length then crash .arithUnderflow
                else
                  let g2 := { g1 with state := true, size := g1.size - disq.length,
                                      public_key := identical_commit.public_key }
                  match writePartials disq g2.commit_cache g2.members with
                  | none => crash .unwrapFailed
                  | some members1 =>
                    let g3 := { g2 with members := members1 }
                    let index_member_map := g3.members.foldl
                      (fun acc p => HMap.insert acc p.2.index p.1) ([] : HMap Nat String)
                    let qualified_indices := (HMap.vals g3.members).map (fun m => m.index)
                    match choose_randomly_from_indices env c1.last_output qualified_indices
                        (max DEFAULT_COMMITTERS_SIZE g3.threshold) with
                    | none => crash .unwrapFailed
                    | some committer_indices =>
                      match lookupAll index_member_map committer_indices with
                      | none => crash .unwrapFailed
                      | some new_committers =>
                        let g4 := { g3 with committers := g3.committers ++ new_committers }
                        let members2 := g4.members.filter (fun p => ¬ disq.contains p.1)
                        let g5 := { g4 with members := members2 }
                        let c2 := { c1 with groups := HMap.insert c1.groups group_index g5 }
                        bindC
                          (forC (fun d c' =>
                            slash_node env d DISQUALIFIED_NODE_PENALTY 0 false c') disq c2)
                          (fun _ c3 => retC () c3)
              else retC () c1

/-- The slashing loop of `check_dkg_state`'s majority branch: the Rust
source computes `handle_group` as `index == disqualified_node.len() - 1`,
comparing against the *string length* of the address being slashed (an empty
address would underflow). -/
def checkSlashLoop (env : Env) : Nat → List String → Controller → CRes Unit
  | _, [], c => retC () c
  | idx, d :: t, c =>
    if d.length = 0 then crash .arithUnderflow
    else
      bindC (slash_node env d DISQUALIFIED_NODE_PENALTY 0 (decide (idx = d.length - 1)) c)
        (fun _ c' => checkSlashLoop env (idx + 1) t c')

/-- The common tail of `check_dkg_state`: credit the caller with
`COORDINATOR_STATE_TRIGGER_REWARD` and drop the coordinator instance. -/
def finishCheck (id_address : String) (group_index : Nat) (c : Controller) : CRes Unit :=
  let cur := (HMap.get? c.rewards id_address).getD 0
  retC () { c with
    rewards := HMap.insert c.rewards id_address (cur + COORDINATOR_STATE_TRIGGER_REWARD),
    coordinators := HMap.erase c.coordinators group_index }

/-- `check_dkg_state` (`controller.rs` lines 907-992). -/
def check_dkg_state (env : Env) (id_address : String) (group_index : Nat)
    (c : Controller) : CRes Unit :=
  match HMap.get? c.groups group_index with
  | none => errC .GroupNotExisted c
  | some g =>
    if g.state then errC .GroupActivated c
    else
      match HMap.get? c.coordinators group_index with
      | none => errC .CoordinatorNotExisted c
      | some co =>
        if co.2.epoch < g.epoch then errC (.CoordinatorEpochObsolete g.epoch) c
        else
          match co.2.in_phase with
          | .ok _ => errC .CoordinatorNotEnded c
          | .error _ =>
            match get_strictly_majority_identical_commitment_result g.commit_cache with
            | (none, _) =>
              let members := HMap.keys g.members
              let g1 := { g with size := 0, threshold := 0, members := [] }
              let c1 := { c with groups := HMap.insert c.groups group_index g1 }
              bindC
                (forC (fun m c' =>
                  slash_node env m DISQUALIFIED_NODE_PENALTY 0 false c') members c1)
                (fun _ c2 => finishCheck id_address group_index c2)
            | (some _, majority_members) =>
              let disqualified_nodes :=
                (HMap.keys g.members).filter (fun m => ¬ majority_members.contains m)
              if g.size < disqualified_nodes.length then crash .arithUnderflow
              else
                let members1 := g.members.filter (fun p => ¬ disqualified_nodes.contains p.1)
                let g1 := { g with size := g.size - disqualified_nodes.length, members := members1 }
                let c1 := { c with groups := HMap.insert c.groups group_index g1 }
                bindC (checkSlashLoop env 0 disqualified_nodes c1)
                  (fun _ c2 => finishCheck id_address group_index c2)

/-- The round-robin loop of `request_randomness`, with fuel (the Rust loop
terminates because some valid index is always reachable). -/
def assignLoop (valid : List Nat) (glen : Nat) : Nat → Nat → Option Nat
  | 0, _ => none
  | fuel + 1, idx =>
    let idx' := (idx + 1) % (glen + 1)
    if valid.contains idx' then some idx' else assignLoop valid glen fuel idx'

/-- `request_randomness` (`controller.rs` lines 994-1033). -/
def request_randomness (message : String) (c : Controller) : CRes Unit :=
  let valid := valid_group_indices c
  if valid.isEmpty then errC .NoVaildGroup c
  else
    match assignLoop valid c.groups.length (c.groups.length + 2) c.last_group_index with
    | none => crash .fuelExhausted
    | some assignment_group_index =>
      let signature_task : SignatureTask :=
        { index := c.signature_count,
          message := message ++ toString c.block_height ++ toString c.last_output,
          group_index := assignment_group_index,
          assignment_block_height := c.block_height }
      retC () { c with
        signature_count := c.signature_count + 1,
        signature_task := some signature_task,
        pending_signature_tasks :=
          HMap.insert c.pending_signature_tasks signature_task.index signature_task,
        last_group_index := assignment_group_index }

/-- The member-reward loop of `fulfill_randomness`. -/
def memberRewardLoop : List String → Controller → CRes Unit
  | [], c => retC () c
  | a :: t, c =>
    match HMap.get? c.nodes a with
    | none => errC .NodeNotExisted c
    | some nd =>
      match HMap.get? c.rewards nd.id_address with
      | none => errC .RewardRecordNotExisted c
      | some r =>
        memberRewardLoop t
          { c with rewards := HMap.insert c.rewards nd.id_address (r + REWARD_PER_SIGNATURE) }

/-- `fulfill_randomness` (`controller.rs` lines 1035-1126). -/
def fulfill_randomness (env : Env) (id_address : String) (group_index signature_index : Nat)
    (signature : Bytes) (partial_signatures : HMap String Bytes)
    (c : Controller) : CRes Unit :=
  match HMap.get? c.pending_signature_tasks signature_index with
  | none => errC .TaskNotFound c
  | some signature_task =>
    if c.block_height ≤ signature_task.assignment_block_height + SIGNATURE_TASK_EXCLUSIVE_WINDOW
        ∧ group_index ≠ signature_task.group_index then
      errC .TaskStillExclusive c
    else
      match HMap.get? c.groups group_index with
      | none => errC .GroupNotExisted c
      | some group =>
        if ¬ group.committers.contains id_address then errC .NotFromCommitter c
        else
          let message := signature_task.message
          if ¬ env.g1Valid group.public_key then errC .PublicKeyBadFormat c
          else if ¬ env.verify group.public_key message signature then errC .BLSVerifyFailed c
          else
            match HMap.get? c.nodes id_address with
            | none => errC .NodeNotExisted c
            | some committer =>
              let committer_address := committer.id_address
              if (HMap.keys partial_signatures).any
                  (fun a => ¬ HMap.contains group.members a) then
                errC .ParticipantNotExisted c
              else
                match HMap.get? c.rewards committer_address with
                | none => errC .RewardRecordNotExisted c
                | some cr =>
                  let rewards1 := HMap.insert c.rewards committer_address
                    (cr + COMMITTER_REWARD_PER_SIGNATURE)
                  let c1 := { c with rewards := rewards1 }
                  bindC (memberRewardLoop (HMap.keys partial_signatures) c1) (fun _ c2 =>
                    let c3 := { c2 with last_output := env.hashBytes signature }
                    let signature_reward : SignatureReward :=
                      { signature_task := signature_task,
                        expiration_block_height :=
                          c3.block_height + SIGNATURE_REWARDS_VALIDATION_WINDOW,
                        committer := committer_address, group := group,
                        partial_signatures := partial_signatures }
                    retC () { c3 with
                      verifiable_signature_rewards := HMap.insert
                        c3.verifiable_signature_rewards signature_index signature_reward,
                      pending_signature_tasks :=
                        HMap.erase c3.pending_signature_tasks signature_index })

/-- The per-partial verification loop of `challenge_verifiable_reward`. -/
def challengeLoop (env : Env) (group : Group) (committer_address message : String)
    (challenger : String) (signature_index : Nat) :
    List (String × Bytes) → Controller → CRes Unit
  | [], c =>
    errC .SignatureRewardVerifiedSuccessfully
      { c with verifiable_signature_rewards :=
        HMap.erase c.verifiable_signature_rewards signature_index }
  | (a, psig) :: t, c =>
    match HMap.get? group.members a with
    | none => crash .unwrapFailed
    | some mem =>
      if ¬ env.g1Valid mem.partial_public_key then errC .PublicKeyBadFormat c
      else
        let okv :=
          match env.evalDecode psig with
          | none => false
          | some v => env.verify mem.partial_public_key message v
        if okv then challengeLoop env group committer_address message challenger
          signature_index t c
        else
          bindC (slash_node env committer_address COMMITTER_PENALTY_PER_SIGNATURE 0 true c)
            (fun _ c1 =>
              let cur := (HMap.get? c1.rewards challenger).getD 0
              let rewards1 := HMap.insert c1.rewards challenger
                (cur + CHALLENGE_REWARD_PER_SIGNATURE)
              let c2 := { c1 with rewards := rewards1 }
              let vsr1 := HMap.erase c2.verifiable_signature_rewards signature_index
              retC () { c2 with verifiable_signature_rewards := vsr1 })

/-- `challenge_verifiable_reward` (`controller.rs` lines 1128-1194). -/
def challenge_verifiable_reward (env : Env) (id_address : String) (signature_index : Nat)
    (c : Controller) : CRes Unit :=
  match HMap.get? c.verifiable_signature_rewards signature_index with
  | none => errC .VerifiableSignatureRewardNotExisted c
  | some signature_reward =>
    match HMap.get? c.nodes signature_reward.committer with
    | none => crash .unwrapFailed
    | some committer =>
      challengeLoop env signature_reward.group committer.id_address
        signature_reward.signature_task.message id_address signature_index
        signature_reward.partial_signatures c

/-- `mine` (`controller.rs` lines 677-687): advance the block height and
forward to every coordinator. -/
def mine (block_number : Nat) (c : Controller) : CRes Nat :=
  let c1 := { c with
    block_height := c.block_height + block_number,
    coordinators := c.coordinators.map
      (fun p => (p.1, (p.2.1, Coordinator.mine p.2.2 block_number))) }
  retC c1.block_height c1

/-! ## Views (`controller.rs` lines 1206-1240) -/

def get_node (c : Controller) (id_address : String) : Option Node :=
  HMap.get? c.nodes id_address

def get_group (c : Controller) (index : Nat) : Option Group :=
  HMap.get? c.groups index

def get_signature_task_completion_state (c : Controller) (index : Nat) : Bool :=
  index < c.signature_count ∧ ¬ HMap.contains c.pending_signature_tasks index

/-! ## Reachability: states produced by sequences of controller transactions -/

/-- One controller transaction with its arguments. -/
inductive Op where
  | register (id : String) (pk : Bytes)
  | activate (id : String)
  | quit (id : String)
  | claimOp (id reward_addr : String) (amount : Nat)
  | commit (id : String) (gi ge : Nat) (pk ppk : Bytes) (disq : List String)
  | checkDkg (id : String) (gi : Nat)
  | request (msg : String)
  | fulfill (id : String) (gi si : Nat) (sig : Bytes) (partials : HMap String Bytes)
  | challenge (id : String) (si : Nat)
  | checkExpire
  | mineOp (n : Nat)
  deriving DecidableEq, Repr

def applyOp (env : Env) : Op → Controller → CRes Unit
  | .register id pk, c => node_register env id pk c
  | .activate id, c => node_activate env id c
  | .quit id, c => node_quit env id c
  | .claimOp id ra amt, c => claim id ra amt c
  | .commit id gi ge pk ppk disq, c => commit_dkg env id gi ge pk ppk disq c
  | .checkDkg id gi, c => check_dkg_state env id gi c
  | .request msg, c => request_randomness msg c
  | .fulfill id gi si sig partials, c => fulfill_randomness env id gi si sig partials c
  | .challenge id si, c => challenge_verifiable_reward env id si c
  | .checkExpire, c => check_verifiable_rewards_expiration c
  | .mineOp n, c => bindC (mine n c) (fun _ c' => retC () c')

/-- States reachable by controller transactions from a fresh controller.
A transaction that returns an error still commits the mutations made before
the error (Rust `?` semantics); a panicking transaction aborts the process
and yields no reachable state. -/
inductive Reachable (env : Env) : Controller → Prop
  | init (entropy : Nat) (addr : String) : Reachable env (Controller.new entropy addr)
  | step {c c' : Controller} {r : Except ControllerError Unit} (op : Op) :
      Reachable env c → applyOp env op c = .ok (r, c') → Reachable env c'

/-- Run a list of transactions, stopping only at a panic. -/
def runOps (env : Env) : List Op → Controller → Except PanicReason Controller
  | [], c => .ok c
  | op :: t, c =>
    match applyOp env op c with
    | .error p => .error p
    | .ok (_, c') => runOps env t c'

theorem runOps_reachable {env : Env} :
    ∀ {l : List Op} {c c' : Controller}, Reachable env c →
      runOps env l c = .ok c' → Reachable env c'
  | [], _, _, h, e => by
    simp only [runOps] at e
    exact (Except.ok.inj e) ▸ h
  | op :: t, c, c', h, e => by
    simp only [runOps] at e
    cases happ : applyOp env op c with
    | error p => rw [happ] at e; exact absurd e (by simp)
    | ok rc =>
      rw [happ] at e
      exact runOps_reachable (Reachable.step op h (by rw [happ])) e

/-- The post-state of a run, defaulting to the initial state on a panic. -/
def runEnd (env : Env) (l : List Op) (c : Controller) : Controller :=
  match runOps env l c with
  | .ok c' => c'
  | .error _ => c

instance {E A : Type} [DecidableEq E] [DecidableEq A] : DecidableEq (Except E A)
  | .error a, .error b => if h : a = b then .isTrue (by rw [h]) else .isFalse (by simp [h])
  | .error _, .ok _ => .isFalse (by simp)
  | .ok _, .error _ => .isFalse (by simp)
  | .ok a, .ok b => if h : a = b then .isTrue (by rw [h]) else .isFalse (by simp [h])

/-! ## General lemmas about the execution model and the containers -/

@[simp] theorem bindC_ret {α β : Type} (a : α) (c : Controller)
    (f : α → Controller → CRes β) : bindC (retC a c) f = f a c := rfl

@[simp] theorem bindC_err {α β : Type} (e : ControllerError) (c : Controller)
    (f : α → Controller → CRes β) : bindC (errC e c) f = errC e c := rfl

@[simp] theorem bindC_crash {α β : Type} (p : PanicReason)
    (f : α → Controller → CRes β) : bindC (crash p) f = crash p := rfl

@[simp] theorem bindC_ok {α β : Type} (a : α) (c : Controller)
    (f : α → Controller → CRes β) : bindC (.ok (.ok a, c)) f = f a c := rfl

@[simp] theorem bindC_okerr {α β : Type} (e : ControllerError) (c : Controller)
    (f : α → Controller → CRes β) : bindC (.ok (.error e, c)) f = .ok (.error e, c) := rfl

@[simp] theorem bindC_error {α β : Type} (p : PanicReason)
    (f : α → Controller → CRes β) : bindC (.error p) f = .error p := rfl

namespace HMap

@[simp] theorem get?_insert {K V : Type} [DecidableEq K] (m : HMap K V) (k : K) (v : V) :
    get? (insert m k v) k = some v := by
  induction m with
  | nil => simp [insert, get?]
  | cons p t ih =>
    by_cases h : p.1 = k
    · simp [insert, h, get?]
    · simp [insert, h, get?, ih]

theorem get?_insert_ne {K V : Type} [DecidableEq K] (m : HMap K V) (k k' : K) (v : V)
    (h : k ≠ k') : get? (insert m k v) k' = get? m k' := by
  induction m with
  | nil => simp [insert, get?, h]
  | cons p t ih =>
    by_cases hp : p.1 = k
    · simp [insert, hp, get?, h]
    · simp only [insert, hp, if_false, get?]
      by_cases hp' : p.1 = k'
      · simp [hp']
      · simp [hp', ih]

theorem contains_eq_true_iff {K V : Type} [DecidableEq K] (m : HMap K V) (k : K) :
    contains m k = true ↔ ∃ v, get? m k = some v := by
  simp [contains, Option.isSome_iff_exists]

theorem length_insert_of_get?_isSome {K V : Type} [DecidableEq K]
    (m : HMap K V) (k : K) (v : V) (h : (get? m k).isSome) :
    (insert m k v).length = m.length := by
  induction m with
  | nil => simp [get?] at h
  | cons p t ih =>
    by_cases hp : p.1 = k
    · simp [insert, hp]
    · simp only [get?, hp, if_false] at h
      simp [insert, hp, ih h]

end HMap

/-! ## Lemmas about the deterministic selection -/

theorem le_listMax_aux (l : List Nat) : ∀ a, a ≤ l.foldl max a ∧ ∀ x ∈ l, x ≤ l.foldl max a := by
  induction l with
  | nil => intro a; simp
  | cons y t ih =>
    intro a
    refine ⟨le_trans (le_max_left a y) (ih (max a y)).1, ?_⟩
    intro x hx
    rcases List.mem_cons.1 hx with rfl | hx
    · exact le_trans (le_max_right a x) (ih (max a x)).1
    · exact (ih (max a y)).2 x hx

theorem le_listMax (l : List Nat) (x : Nat) (hx : x ∈ l) : x ≤ listMax l :=
  (le_listMax_aux l 0).2 x hx

theorem foldl_max_mem (l : List Nat) : ∀ a, l.foldl max a = a ∨ l.foldl max a ∈ l := by
  induction l with
  | nil => intro a; simp
  | cons y t ih =>
    intro a
    have hstep : (y :: t).foldl max a = t.foldl max (max a y) := rfl
    rcases ih (max a y) with h | h
    · rw [hstep, h]
      rcases Nat.le_total a y with hle | hle
      · right; rw [Nat.max_eq_right hle]; exact List.mem_cons_self _ _
      · left; rw [Nat.max_eq_left hle]
    · right
      rw [hstep]
      exact List.mem_cons_of_mem _ h

theorem listMax_mem (l : List Nat) (h : l ≠ []) : listMax l ∈ l := by
  rcases foldl_max_mem l 0 with h0 | h0
  · cases l with
    | nil => exact absurd rfl h
    | cons y t =>
      have hy : y ≤ listMax (y :: t) := le_listMax _ y (by simp)
      have hz : listMax (y :: t) = 0 := h0
      unfold listMax
      rw [h0]
      have : y = 0 := by omega
      rw [← this]
      exact List.mem_cons_self _ _
  · unfold listMax
    exact h0

theorem mapGo_mem (qs : List Nat) (m : Nat) :
    ∀ (fuel i x : Nat), mapGo qs m fuel i = some x → x ∈ qs := by
  intro fuel
  induction fuel with
  | zero => intro i x h; simp [mapGo] at h
  | succ k ih =>
    intro i x h
    simp only [mapGo] at h
    by_cases hm : i ∈ qs
    · simp [hm] at h; exact h ▸ hm
    · simp [hm] at h; exact ih _ _ h

theorem mapGo_hits (qs : List Nat) (m : Nat) (hm : m ∈ qs) :
    ∀ (k i : Nat), i ≤ m → m - i < k → (mapGo qs m k i).isSome := by
  intro k
  induction k with
  | zero => intro i _ h; omega
  | succ k ih =>
    intro i hi hk
    simp only [mapGo]
    by_cases hmem : i ∈ qs
    · simp [hmem]
    · have hne : i ≠ m := fun h => hmem (h ▸ hm)
      have hlt : i < m := lt_of_le_of_ne hi hne
      have hstep : (i + 1) % (m + 1) = i + 1 := Nat.mod_eq_of_lt (by omega)
      simp only [hmem, if_false]
      rw [hstep]
      exact ih (i + 1) (by omega) (by omega)

theorem map_to_qualified_mem (qs : List Nat) (i x : Nat)
    (h : map_to_qualified_indices i qs = some x) : x ∈ qs := by
  cases qs with
  | nil => simp [map_to_qualified_indices] at h
  | cons y t =>
    simp only [map_to_qualified_indices] at h
    exact mapGo_mem _ _ _ _ _ h

theorem mapToQualified_isSome (qs : List Nat) (i : Nat) (h : qs ≠ []) :
    ∃ x, map_to_qualified_indices i qs = some x ∧ x ∈ qs := by
  have hmax : listMax qs ∈ qs := listMax_mem qs h
  have hsome : (map_to_qualified_indices i qs).isSome := by
    unfold map_to_qualified_indices
    cases hq : qs with
    | nil => exact absurd hq h
    | cons y t =>
      rw [← hq]
      by_cases hmem : i ∈ qs
      · have : listMax qs + 2 + i = (listMax qs + 1 + i) + 1 := by omega
        rw [this]
        simp [mapGo, hmem]
      · have : listMax qs + 2 + i = (listMax qs + 1 + i) + 1 := by omega
        rw [this]
        simp only [mapGo, hmem, if_false]
        exact mapGo_hits qs (listMax qs) hmax _ _
          (Nat.le_of_lt_succ (Nat.mod_lt _ (by omega))) (by omega)
  rcases Option.isSome_iff_exists.1 hsome with ⟨x, hx⟩
  exact ⟨x, hx, map_to_qualified_mem qs i x hx⟩


/-- Run a list of transactions requiring every one to return `Ok`. -/
def runAllOk (env : Env) : List Op → Controller → Option Controller
  | [], c => some c
  | op :: t, c =>
    match applyOp env op c with
    | .ok (.ok _, c') => runAllOk env t c'
    | _ => none

theorem runAllOk_reachable {env : Env} :
    ∀ {l : List Op} {c c' : Controller}, Reachable env c →
      runAllOk env l c = some c' → Reachable env c'
  | [], _, _, h, e => by
    simp only [runAllOk] at e
    exact (Option.some.inj e) ▸ h
  | op :: t, c, c', h, e => by
    simp only [runAllOk] at e
    cases happ : applyOp env op c with
    | error p => rw [happ] at e; exact absurd e (by simp)
    | ok rc =>
      rw [happ] at e
      rcases rc with ⟨r, cm⟩
      cases r with
      | error er => exact absurd e (by simp)
      | ok u => exact runAllOk_reachable (Reachable.step op h (by rw [happ])) e

/-! ## Claim C5: register → quit → (wait) → activate

The spec claims the sequence ends with `get_node` reporting
`active state = true` and full staking. In the source, `node_activate`
(`controller.rs` lines 718-739) refills the staking and re-joins the node to
a group but never sets `node.state` back to `true`, so the node ends
inactive: a code bug (the `NodeActivated` error and the spec both treat
`state` as the activation flag). -/

def c5env : Env :=
  { hashNat := fun _ => 0, hashBytes := fun _ => 0, g1Valid := fun _ => true,
    verify := fun _ _ _ => true, evalDecode := fun b => some b }

def c5ops : List Op :=
  [.register "0x1" [1], .quit "0x1", .mineOp PENDING_BLOCK_AFTER_QUIT, .activate "0x1"]

def c5end : Controller := runEnd c5env c5ops (Controller.new 42 "0xctrl")

/-- C5: after `node_register("0x1")`, `node_quit("0x1")`, mining past
`pending_until_block` and a *successful* `node_activate("0x1")`, the node's
staking is back to `NODE_STAKING_AMOUNT` but its active state is `false`,
not `true` as the claim states: `node_activate` never restores the state
flag. -/
theorem node_activate_leaves_state_false :
    runAllOk c5env c5ops (Controller.new 42 "0xctrl") = some c5end ∧
    (get_node c5end "0x1").map Node.state = some false ∧
    (get_node c5end "0x1").map Node.staking = some NODE_STAKING_AMOUNT ∧
    (get_node c5end "0x1").map Node.pending_until_block = some 200 ∧
    c5end.block_height = 200 := by decide

/-! ## Claim C6: `choose_randomly_from_indices`

The claim says each iteration maps `hash mod (max_idx+1)` into the remaining
qualified set; the source (`controller.rs` line 1252) computes
`hash % (vec.len() + 1)` — the *pool size*, not the maximal index — and only
the subsequent increment search runs modulo `max_idx+1`. -/

/-- The selection procedure exactly as claim C6 words it: the reduction of
the fresh hash is taken modulo `max_idx + 1` (the maximum remaining index),
then mapped into the pool by the increment search. -/
def chooseC6Go (env : Env) : Nat → Nat → List Nat → Option (List Nat)
  | _, 0, _ => some []
  | _, _, [] => some []
  | hash, count + 1, v :: t =>
    let hash' := env.hashNat hash
    match map_to_qualified_indices (hash' % (listMax (v :: t) + 1)) (v :: t) with
    | none => none
    | some index =>
      match chooseC6Go env hash' count (List.filter (fun x => x ≠ index) (v :: t)) with
      | none => none
      | some rest => some (index :: rest)

def claimC6_choose (env : Env) (seed : Nat) (indices : List Nat) (count : Nat) :
    Option (List Nat) :=
  chooseC6Go env seed count indices

/-- Claim C6 as stated: for every seed, non-empty index list and count, the
source function follows the `mod (max_idx+1)` procedure. -/
def claim_C6_prop : Prop :=
  ∀ (env : Env) (seed : Nat) (indices : List Nat) (count : Nat), indices ≠ [] →
    choose_randomly_from_indices env seed indices count =
      claimC6_choose env seed indices count

def c6env : Env :=
  { hashNat := fun _ => 3, hashBytes := fun _ => 0, g1Valid := fun _ => true,
    verify := fun _ _ _ => true, evalDecode := fun b => some b }

/-- C6 (counterexample): with a hash evaluating to 3 and pool `[0, 3]`
(2 entries, maximal index 3), the source reduces `3 mod 3 = 0` and picks
`0`, while the claim's `3 mod 4 = 3` picks `3`; the claim is false. -/
theorem claim_C6_counterexample :
    choose_randomly_from_indices c6env 0 [0, 3] 1 = some [0] ∧
    claimC6_choose c6env 0 [0, 3] 1 = some [3] ∧
    ¬ claim_C6_prop := by
  refine ⟨by decide, by decide, fun h => ?_⟩
  have h2 := h c6env 0 [0, 3] 1 (by decide)
  rw [show choose_randomly_from_indices c6env 0 [0, 3] 1 = some [0] from by decide,
      show claimC6_choose c6env 0 [0, 3] 1 = some [3] from by decide] at h2
  exact absurd h2 (by decide)

/-- C6 (amended): `choose_randomly_from_indices(seed, indices, k)` starts
from `hash = seed`; each iteration sets `hash = stable_hash(hash)`, maps
`hash mod (remaining pool size + 1)` into the remaining qualified set by the
increment-modulo-`(max_idx+1)` search of `map_to_qualified_indices`, appends
the found index, removes it from the pool, and repeats `k` times or until
the pool is empty. -/
theorem choose_randomly_from_indices_spec (env : Env) (seed : Nat)
    (pool : List Nat) (k : Nat) :
    choose_randomly_from_indices env seed pool 0 = some [] ∧
    choose_randomly_from_indices env seed [] k = some [] ∧
    (pool ≠ [] → 0 < k →
      ∃ x, map_to_qualified_indices (env.hashNat seed % (pool.length + 1)) pool = some x ∧
        x ∈ pool ∧
        choose_randomly_from_indices env seed pool k =
          (choose_randomly_from_indices env (env.hashNat seed)
            (pool.filter (fun y => y ≠ x)) (k - 1)).map (fun r => x :: r)) := by
  refine ⟨?_, ?_, ?_⟩
  · cases pool <;> rfl
  · cases k <;> rfl
  · intro hne hk
    rcases List.exists_cons_of_ne_nil hne with ⟨v, t, rfl⟩
    rcases Nat.exists_eq_succ_of_ne_zero (Nat.pos_iff_ne_zero.1 hk) with ⟨k', rfl⟩
    rcases mapToQualified_isSome (v :: t) (env.hashNat seed % ((v :: t).length + 1))
      (by simp) with ⟨x, hx, hmem⟩
    refine ⟨x, hx, hmem, ?_⟩
    simp only [choose_randomly_from_indices, chooseGo, Nat.succ_sub_one, ne_eq, decide_not]
    rw [hx]
    cases hrec : chooseGo env (env.hashNat seed) k'
        (List.filter (fun y => !decide (y = x)) (v :: t)) <;> simp [hrec]

/-- C6 (witness): the amended recurrence evaluated at a concrete input. -/
theorem choose_randomly_from_indices_spec_witness :
    choose_randomly_from_indices c6env 7 [0, 3] 1 =
      (choose_randomly_from_indices c6env (c6env.hashNat 7)
        ([0, 3].filter (fun y => y ≠ 0)) 0).map (fun r => 0 :: r) := by
  rcases (choose_randomly_from_indices_spec c6env 7 [0, 3] 1).2.2 (by decide)
    (by decide) with ⟨x, hx, _, heq⟩
  have hx0 : x = 0 := by
    rw [show map_to_qualified_indices (c6env.hashNat 7 % ([0, 3].length + 1)) [0, 3] =
      some 0 from by decide] at hx
    exact (Option.some.inj hx).symm
  rw [heq, hx0]


/-! ## Claim C1: `fulfill_randomness` and partial-signature validity

The source (`controller.rs` lines 1083-1087) checks only that every
contributor in `partial_signatures` is a member of the group; the partial
signatures themselves are never verified at fulfillment time (per-partial
verification happens later, in `challenge_verifiable_reward`). -/

theorem HMap.contains_of_get? {K V : Type} [DecidableEq K] {m : HMap K V} {k : K}
    {v : V} (h : HMap.get? m k = some v) : HMap.contains m k = true := by
  simp [HMap.contains, h]

/-- Claim C1 as stated: a `fulfill_randomness` call whose partials map
contains a byte string that is not a valid partial signature of the task
message under that member's partial public key does not succeed. -/
def claim_C1_prop : Prop :=
  ∀ (env : Env) (c c' : Controller) (id : String) (gi si : Nat) (sig : Bytes)
    (partials : HMap String Bytes) (g : Group) (task : SignatureTask)
    (a : String) (ps : Bytes) (m : Member),
    HMap.get? c.pending_signature_tasks si = some task →
    HMap.get? c.groups gi = some g →
    HMap.get? partials a = some ps →
    HMap.get? g.members a = some m →
    (match env.evalDecode ps with
     | none => false
     | some v => env.verify m.partial_public_key task.message v) = false →
    fulfill_randomness env id gi si sig partials c ≠ .ok (.ok (), c')

def c1env : Env :=
  { hashNat := fun _ => 0, hashBytes := fun _ => 0, g1Valid := fun _ => true,
    verify := fun pk _ _ => pk == [1], evalDecode := fun b => some b }

def c1group : Group :=
  { index := 1, epoch := 1, capacity := 10, size := 3, threshold := 3, state := true,
    public_key := [1],
    members := [("0x1", ⟨0, "0x1", [2]⟩), ("0x2", ⟨1, "0x2", [3]⟩), ("0x3", ⟨2, "0x3", [4]⟩)],
    committers := ["0x1", "0x2", "0x3"], commit_cache := [] }

def c1task : SignatureTask :=
  { index := 0, message := "m", group_index := 1, assignment_block_height := 100 }

def c1state : Controller :=
  { Controller.new 42 "0xctrl" with
      groups := [(1, c1group)],
      nodes := [("0x1", ⟨"0x1", [9], true, 0, 50000⟩),
                ("0x2", ⟨"0x2", [9], true, 0, 50000⟩),
                ("0x3", ⟨"0x3", [9], true, 0, 50000⟩)],
      rewards := [("0x1", 0), ("0x2", 0), ("0x3", 0)],
      pending_signature_tasks := [(0, c1task)] }

def c1post : Controller :=
  match fulfill_randomness c1env "0x1" 1 0 [9] [("0x2", [5])] c1state with
  | .ok (_, c') => c'
  | .error _ => c1state

/-- C1 (counterexample): on a pending task, a committer's call whose
partials map holds the byte string `[5]` for member `0x2` — which is *not*
a valid partial signature under `0x2`'s partial public key `[3]` in this
environment — succeeds anyway: the controller never verifies partial
signatures in `fulfill_randomness`. -/
theorem claim_C1_counterexample :
    fulfill_randomness c1env "0x1" 1 0 [9] [("0x2", [5])] c1state = .ok (.ok (), c1post) ∧
    (match c1env.evalDecode [5] with
     | none => false
     | some v => c1env.verify [3] c1task.message v) = false ∧
    ¬ claim_C1_prop := by
  refine ⟨by decide, by decide, fun h => ?_⟩
  exact h c1env c1state c1post "0x1" 1 0 [9] [("0x2", [5])] c1group c1task "0x2" [5]
    ⟨1, "0x2", [3]⟩ (by decide) (by decide) (by decide) (by decide) (by decide) (by decide)

/-- C1 (amended): for every successful call
`fulfill_randomness(id, gi, si, sig, partials)` on a pending task, the
controller verified that `sig` is a valid threshold signature of the task
message under the group public key (a well-formed key that passes the BLS
verification) and that every contributor in `partials` is a member of the
group; the partial signatures themselves are not verified at fulfillment
(their per-partial verification is deferred to
`challenge_verifiable_reward`). -/
theorem fulfill_randomness_checks (env : Env) (c c' : Controller) (id : String)
    (gi si : Nat) (sig : Bytes) (partials : HMap String Bytes)
    (task : SignatureTask) (g : Group)
    (htask : HMap.get? c.pending_signature_tasks si = some task)
    (hg : HMap.get? c.groups gi = some g)
    (h : fulfill_randomness env id gi si sig partials c = .ok (.ok (), c')) :
    env.g1Valid g.public_key = true ∧
    env.verify g.public_key task.message sig = true ∧
    g.committers.contains id = true ∧
    ∀ a ∈ HMap.keys partials, HMap.contains g.members a = true := by
  simp only [fulfill_randomness, htask, hg] at h
  split at h
  next h1 => exact absurd h (by simp [errC])
  next h1 =>
  split at h
  next h2 => exact absurd h (by simp [errC])
  next h2 =>
  split at h
  next h3 => exact absurd h (by simp [errC])
  next h3 =>
  split at h
  next h4 => exact absurd h (by simp [errC])
  next h4 =>
  split at h
  next h5 => exact absurd h (by simp [errC])
  next committer h5 =>
  split at h
  next h6 => exact absurd h (by simp [errC])
  next h6 =>
  refine ⟨by simpa using h3, by simpa using h4, by simpa using h2, ?_⟩
  intro a ha
  by_contra hc
  exact h6 (by
    refine List.any_eq_true.2 ⟨a, ha, ?_⟩
    simp [hc])

/-- C1 (witness): the amended theorem applied to the concrete successful
call of the counterexample state. -/
theorem fulfill_randomness_checks_witness :
    c1env.g1Valid c1group.public_key = true ∧
    c1env.verify c1group.public_key c1task.message [9] = true ∧
    c1group.committers.contains "0x1" = true ∧
    ∀ a ∈ HMap.keys [("0x2", ([5] : Bytes))], HMap.contains c1group.members a = true :=
  fulfill_randomness_checks c1env c1state c1post "0x1" 1 0 [9] [("0x2", [5])]
    c1task c1group (by decide) (by decide) (by decide)


/-! ## Claim C8: `commit_dkg` on an already-ready group

The ready branch (`controller.rs` lines 832-836) records the member's
partial public key — but the commit was *also* inserted into the group's
commit cache just before (line 830), so more than the member's
partial_public_key field changes. -/

theorem HMap.insert_insert_same {K V : Type} [DecidableEq K] (m : HMap K V)
    (k : K) (v w : V) :
    HMap.insert (HMap.insert m k v) k w = HMap.insert m k w := by
  induction m with
  | nil => simp [HMap.insert]
  | cons p t ih =>
    by_cases h : p.1 = k
    · simp [HMap.insert, h]
    · simp [HMap.insert, h, ih]

/-- The controller with one group replaced. -/
def withGroup (c : Controller) (gi : Nat) (g : Group) : Controller :=
  { c with groups := HMap.insert c.groups gi g }

/-- The group with one member's partial public key replaced. -/
def setMemberPpk (g : Group) (id : String) (mem : Member) (ppk : Bytes) : Group :=
  { g with members := HMap.insert g.members id { mem with partial_public_key := ppk } }

/-- The group with one commit-cache record added. -/
def addCache (g : Group) (id : String) (cc : CommitCache) : Group :=
  { g with commit_cache := HMap.insert g.commit_cache id cc }

/-- Claim C8 as stated: a successful `commit_dkg` on a ready group changes
only the caller's `partial_public_key` field and nothing else in the
controller state (in particular the commit cache would stay unchanged). -/
def claim_C8_prop : Prop :=
  ∀ (env : Env) (c c' : Controller) (id : String) (gi ge : Nat) (pk ppk : Bytes)
    (disq : List String) (g : Group) (mem : Member),
    HMap.get? c.groups gi = some g → g.state = true →
    HMap.get? g.members id = some mem →
    commit_dkg env id gi ge pk ppk disq c = .ok (.ok (), c') →
    c' = withGroup c gi (setMemberPpk g id mem ppk)

def c8post : Controller :=
  match commit_dkg c1env "0x2" 1 1 [6] [7] [] c1state with
  | .ok (_, c') => c'
  | .error _ => c1state

/-- C8 (counterexample): a successful `commit_dkg` by member `0x2` on the
ready group also inserts a record into the group's commit cache, so the
post state differs from "only the partial_public_key changed". -/
theorem claim_C8_counterexample :
    commit_dkg c1env "0x2" 1 1 [6] [7] [] c1state = .ok (.ok (), c8post) ∧
    (HMap.get? c8post.groups 1).map Group.commit_cache ≠
      some c1group.commit_cache ∧
    ¬ claim_C8_prop := by
  refine ⟨by decide, by decide, fun h => ?_⟩
  have h2 := h c1env c1state c8post "0x2" 1 1 [6] [7] [] c1group ⟨1, "0x2", [3]⟩
    (by decide) (by decide) (by decide) (by decide)
  exact absurd h2 (by decide)

/-- C8 (amended): for an already-ready group, a valid `commit_dkg` by a
member that has not committed at the current epoch succeeds, updates that
member's partial_public_key, records the commit in the group's commit
cache, and changes nothing else: the ready flag, group public key, size,
membership and committers are untouched and finalization is not re-run. -/
theorem commit_dkg_ready_updates (env : Env) (c : Controller) (id : String)
    (gi ge : Nat) (pk ppk : Bytes) (disq : List String) (g : Group) (mem : Member)
    (hg : HMap.get? c.groups gi = some g) (hready : g.state = true)
    (hpk : env.g1Valid pk = true) (hppk : env.g1Valid ppk = true)
    (hmem : HMap.get? g.members id = some mem) (hep : g.epoch = ge)
    (hnc : HMap.contains g.commit_cache id = false) :
    commit_dkg env id gi ge pk ppk disq c = .ok (.ok (),
      withGroup c gi
        (setMemberPpk (addCache g id ⟨⟨ge, pk, disq⟩, ppk⟩) id mem ppk)) := by
  have hcont : HMap.contains c.groups gi = true := HMap.contains_of_get? hg
  have hmc : HMap.contains g.members id = true := HMap.contains_of_get? hmem
  simp only [commit_dkg, hcont, hpk, hppk, hg, hmc, hep, hnc, hready, hmem,
    withGroup, setMemberPpk, addCache, Bool.not_eq_true, not_true,
    not_false_iff, if_false, if_true, Bool.false_eq_true, ne_eq,
    not_true_eq_false]
  rw [HMap.insert_insert_same]
  rfl

/-- C8 (witness): the amended theorem applied to the ready group of the
concrete state, member `0x3`. -/
theorem commit_dkg_ready_updates_witness :
    commit_dkg c1env "0x3" 1 1 [6] [7] [] c1state = .ok (.ok (),
      withGroup c1state 1
        (setMemberPpk (addCache c1group "0x3" ⟨⟨1, [6], []⟩, [7]⟩) "0x3"
          ⟨2, "0x3", [4]⟩ [7])) :=
  commit_dkg_ready_updates c1env c1state "0x3" 1 1 [6] [7] [] c1group ⟨2, "0x3", [4]⟩
    (by decide) (by decide) (by decide) (by decide) (by decide) (by decide) (by decide)


/-! ## Claim C7: the signature-task exclusive window -/

theorem HMap.get?_insert_isSome {K V : Type} [DecidableEq K] (m : HMap K V)
    (j k : K) (v : V) (h : (HMap.get? m k).isSome) :
    (HMap.get? (HMap.insert m j v) k).isSome := by
  by_cases hjk : j = k
  · subst hjk; simp [HMap.get?_insert]
  · rw [HMap.get?_insert_ne _ _ _ _ hjk]; exact h

theorem memberRewardLoop_ok :
    ∀ (l : List String) (c : Controller),
      (∀ a ∈ l, ∃ nd, HMap.get? c.nodes a = some nd ∧
        (HMap.get? c.rewards nd.id_address).isSome) →
      ∃ c', memberRewardLoop l c = .ok (.ok (), c') := by
  intro l
  induction l with
  | nil => intro c _; exact ⟨c, rfl⟩
  | cons a t ih =>
    intro c hc
    rcases hc a (by simp) with ⟨nd, hnd, hr⟩
    rcases Option.isSome_iff_exists.1 hr with ⟨r, hrr⟩
    simp only [memberRewardLoop, hnd, hrr]
    apply ih
    intro b hb
    rcases hc b (List.mem_cons_of_mem _ hb) with ⟨nd', hnd', hr'⟩
    exact ⟨nd', hnd', HMap.get?_insert_isSome _ _ _ _ hr'⟩

/-- C7: for a pending task, (a) while the current block height is within
`SIGNATURE_TASK_EXCLUSIVE_WINDOW` of the assignment block height, a call
from a group other than the assigned one fails with `TaskStillExclusive`
and leaves the controller state unchanged; (b) once the block height
exceeds `assignment + SIGNATURE_TASK_EXCLUSIVE_WINDOW`, a committer of any
ready group may fulfill the task (the call succeeds whenever the
cryptographic checks pass and the bookkeeping rows exist). -/
theorem fulfill_randomness_exclusive_window (env : Env) (c : Controller)
    (id : String) (gi si : Nat) (sig : Bytes) (partials : HMap String Bytes)
    (task : SignatureTask)
    (htask : HMap.get? c.pending_signature_tasks si = some task) :
    (c.block_height ≤ task.assignment_block_height + SIGNATURE_TASK_EXCLUSIVE_WINDOW →
      gi ≠ task.group_index →
      fulfill_randomness env id gi si sig partials c =
        .ok (.error .TaskStillExclusive, c)) ∧
    (∀ (g : Group) (nd : Node) (cr : Nat),
      task.assignment_block_height + SIGNATURE_TASK_EXCLUSIVE_WINDOW < c.block_height →
      HMap.get? c.groups gi = some g → g.state = true →
      g.committers.contains id = true →
      env.g1Valid g.public_key = true →
      env.verify g.public_key task.message sig = true →
      HMap.get? c.nodes id = some nd →
      (∀ a ∈ HMap.keys partials, HMap.contains g.members a = true) →
      HMap.get? c.rewards nd.id_address = some cr →
      (∀ a ∈ HMap.keys partials, ∃ nd', HMap.get? c.nodes a = some nd' ∧
        (HMap.get? c.rewards nd'.id_address).isSome) →
      ∃ c', fulfill_randomness env id gi si sig partials c = .ok (.ok (), c')) := by
  constructor
  · intro hwin hgi
    simp only [fulfill_randomness, htask]
    rw [if_pos ⟨hwin, hgi⟩]
    rfl
  · intro g nd cr hlate hg hready hcomm hpk hver hnd hmembers hrw hrows
    simp only [fulfill_randomness, htask, hg, hnd, hver, hpk, hcomm, hrw]
    rw [if_neg (fun hand => absurd hand.1 (not_le.2 hlate))]
    rw [if_neg (by simp [hcomm])]
    rw [if_neg (by simp [hpk])]
    rw [if_neg (by simp [hver])]
    rw [if_neg (by
      intro hany
      rcases List.any_eq_true.1 hany with ⟨a, ha, hcontr⟩
      rw [hmembers a ha] at hcontr
      simp at hcontr)]
    have hrows1 : ∀ a ∈ HMap.keys partials, ∃ nd', HMap.get? c.nodes a = some nd' ∧
        (HMap.get? (HMap.insert c.rewards nd.id_address (cr + COMMITTER_REWARD_PER_SIGNATURE)) nd'.id_address).isSome := by
      intro a ha
      rcases hrows a ha with ⟨nd', hnd', hr'⟩
      exact ⟨nd', hnd', HMap.get?_insert_isSome _ _ _ _ hr'⟩
    rcases memberRewardLoop_ok (HMap.keys partials) { c with rewards := HMap.insert c.rewards nd.id_address (cr + COMMITTER_REWARD_PER_SIGNATURE) } hrows1 with ⟨c2, hc2⟩
    rw [hc2]
    exact ⟨_, rfl⟩

def c7group2 : Group :=
  { index := 2, epoch := 1, capacity := 10, size := 3, threshold := 3, state := true,
    public_key := [1],
    members := [("0xb1", ⟨0, "0xb1", [2]⟩), ("0xb2", ⟨1, "0xb2", [3]⟩),
                ("0xb3", ⟨2, "0xb3", [4]⟩)],
    committers := ["0xb1", "0xb2", "0xb3"], commit_cache := [] }

def c7state : Controller :=
  { c1state with
      block_height := 105,
      groups := [(1, c1group), (2, c7group2)],
      nodes := c1state.nodes ++
        [("0xb1", ⟨"0xb1", [9], true, 0, 50000⟩),
         ("0xb2", ⟨"0xb2", [9], true, 0, 50000⟩),
         ("0xb3", ⟨"0xb3", [9], true, 0, 50000⟩)],
      rewards := c1state.rewards ++ [("0xb1", 0), ("0xb2", 0), ("0xb3", 0)] }

def c7late : Controller := { c7state with block_height := 111 }

/-- C7 (witness): the task of `c7state` is assigned to group 1 at block 100;
at block 105 a committer of ready group 2 gets `TaskStillExclusive` with the
state unchanged, and at block 111 the same call succeeds. -/
theorem fulfill_randomness_exclusive_window_witness :
    fulfill_randomness c1env "0xb1" 2 0 [9] [("0xb2", [5])] c7state =
      .ok (.error .TaskStillExclusive, c7state) ∧
    ∃ c', fulfill_randomness c1env "0xb1" 2 0 [9] [("0xb2", [5])] c7late =
      .ok (.ok (), c') := by
  constructor
  · exact (fulfill_randomness_exclusive_window c1env c7state "0xb1" 2 0 [9]
      [("0xb2", [5])] c1task (by decide)).1 (by decide) (by decide)
  · exact (fulfill_randomness_exclusive_window c1env c7late "0xb1" 2 0 [9]
      [("0xb2", [5])] c1task (by decide)).2 c7group2 ⟨"0xb1", [9], true, 0, 50000⟩ 0
      (by decide) (by decide) (by decide) (by decide) (by decide) (by decide)
      (by decide) (by decide) (by decide)
      (by
        intro a ha
        have : a = "0xb2" := by simpa [HMap.keys] using ha
        subst this
        exact ⟨⟨"0xb2", [9], true, 0, 50000⟩, by decide, by decide⟩)


/-! ## Claim C9: challenging a reward whose partials all verify

`challenge_verifiable_reward` (`controller.rs` lines 1128-1194) removes the
reward record in *both* outcomes; the all-valid outcome reports
`SignatureRewardVerifiedSuccessfully` with no slashing and no challenger
reward, and a second challenge of the same index finds no record. -/

theorem HMap.get?_erase_self {K V : Type} [DecidableEq K] (m : HMap K V) (k : K) :
    HMap.get? (HMap.erase m k) k = none := by
  induction m with
  | nil => rfl
  | cons p t ih =>
    by_cases h : p.1 = k
    · simp [HMap.erase, h, ih]
    · simp [HMap.erase, h, HMap.get?, ih]

/-- The controller with one verifiable reward removed. -/
def eraseReward (c : Controller) (si : Nat) : Controller :=
  { c with verifiable_signature_rewards := HMap.erase c.verifiable_signature_rewards si }

theorem challengeLoop_all_ok (env : Env) (g : Group) (ca msg ch : String) (si : Nat) :
    ∀ (l : List (String × Bytes)) (c : Controller),
      (∀ p ∈ l, ∃ m, HMap.get? g.members p.1 = some m ∧
        env.g1Valid m.partial_public_key = true ∧
        (match env.evalDecode p.2 with
         | none => false
         | some v => env.verify m.partial_public_key msg v) = true) →
      challengeLoop env g ca msg ch si l c =
        .ok (.error .SignatureRewardVerifiedSuccessfully, eraseReward c si) := by
  intro l
  induction l with
  | nil => intro c _; rfl
  | cons p t ih =>
    intro c hall
    rcases hall p (by simp) with ⟨m, hm, hpkv, hver⟩
    rcases p with ⟨a, ps⟩
    simp only [challengeLoop, hm, hpkv, Bool.not_eq_true, not_false_iff, if_false,
      Bool.true_eq_false, if_true, hver]
    simp only [hver] at *
    exact ih c (fun q hq => hall q (List.mem_cons_of_mem _ hq))

/-- C9: for a verifiable reward whose partial signatures all verify
individually, `challenge_verifiable_reward` reports
`SignatureRewardVerifiedSuccessfully` yet removes the reward record, with no
slashing and no challenger reward (the post state differs from the pre state
only in `verifiable_signature_rewards`); a second challenge of the same
index fails with `VerifiableSignatureRewardNotExisted`. -/
theorem challenge_verified_success_removes (env : Env) (c : Controller)
    (id : String) (si : Nat) (sr : SignatureReward) (committer : Node)
    (hsr : HMap.get? c.verifiable_signature_rewards si = some sr)
    (hnode : HMap.get? c.nodes sr.committer = some committer)
    (hall : ∀ p ∈ sr.partial_signatures, ∃ m,
      HMap.get? sr.group.members p.1 = some m ∧
      env.g1Valid m.partial_public_key = true ∧
      (match env.evalDecode p.2 with
       | none => false
       | some v => env.verify m.partial_public_key sr.signature_task.message v) = true) :
    challenge_verifiable_reward env id si c =
      .ok (.error .SignatureRewardVerifiedSuccessfully, eraseReward c si) ∧
    challenge_verifiable_reward env id si (eraseReward c si) =
      .ok (.error .VerifiableSignatureRewardNotExisted, eraseReward c si) := by
  constructor
  · simp only [challenge_verifiable_reward, hsr, hnode]
    exact challengeLoop_all_ok env sr.group committer.id_address
      sr.signature_task.message id si sr.partial_signatures c hall
  · simp only [challenge_verifiable_reward, eraseReward, HMap.get?_erase_self]
    rfl

def c9env : Env :=
  { hashNat := fun _ => 0, hashBytes := fun _ => 0, g1Valid := fun _ => true,
    verify := fun _ _ _ => true, evalDecode := fun b => some b }

def c9reward : SignatureReward :=
  { signature_task := c1task, expiration_block_height := 150, committer := "0x1",
    group := c1group, partial_signatures := [("0x2", [5])] }

def c9state : Controller :=
  { c1state with verifiable_signature_rewards := [(0, c9reward)] }

/-- C9 (witness): the theorem applied to a concrete reward whose single
partial signature verifies. -/
theorem challenge_verified_success_removes_witness :
    challenge_verifiable_reward c9env "0xchallenger" 0 c9state =
      .ok (.error .SignatureRewardVerifiedSuccessfully, eraseReward c9state 0) ∧
    challenge_verifiable_reward c9env "0xchallenger" 0 (eraseReward c9state 0) =
      .ok (.error .VerifiableSignatureRewardNotExisted, eraseReward c9state 0) :=
  challenge_verified_success_removes c9env c9state "0xchallenger" 0 c9reward
    ⟨"0x1", [9], true, 0, 50000⟩ (by decide) (by decide)
    (by
      intro p hp
      have hp2 : p = ("0x2", ([5] : Bytes)) := by
        simpa [c9reward] using hp
      subst hp2
      exact ⟨⟨1, "0x2", [3]⟩, by decide, by decide, by decide⟩)


/-! ## Claim C4: `check_dkg_state` -/

/-- One `slash_node` call with `pending_block = 0` on a node that is not a
member of any group (or with `handle_group = false`): the staking drops by
the penalty and only the node map changes. -/
theorem slash_node_char (env : Env) (a : String) (pen : Nat) (hgf : Bool)
    (c : Controller) (nd : Node)
    (hnd : HMap.get? c.nodes a = some nd) (hstk : pen ≤ nd.staking)
    (hng : hgf = true →
      (HMap.vals c.groups).find? (fun g => HMap.contains g.members a) = none) :
    ∃ nd', slash_node env a pen 0 hgf c =
        .ok (.ok (), { c with nodes := HMap.insert c.nodes a nd' }) ∧
      nd'.staking = nd.staking - pen := by
  simp only [slash_node, hnd]
  rw [if_neg (by omega)]
  by_cases hfr : nd.staking - pen < NODE_STAKING_AMOUNT
  · rw [if_pos (Or.inl hfr)]
    cases hgf with
    | false =>
      simp only [freeze_node, Bool.false_eq_true, if_false, freezeFinish,
        HMap.get?_insert]
      rw [HMap.insert_insert_same]
      exact ⟨_, rfl, rfl⟩
    | true =>
      simp only [freeze_node, if_true]
      rw [hng rfl]
      simp only [freezeFinish, HMap.get?_insert]
      rw [HMap.insert_insert_same]
      exact ⟨_, rfl, rfl⟩
  · rw [if_neg (by simp [hfr])]
    exact ⟨_, rfl, rfl⟩

/-- The wipe-branch slashing loop of `check_dkg_state` (penalty
`DISQUALIFIED_NODE_PENALTY`, `handle_group = false`): every listed node's
staking drops by the penalty; groups, rewards, coordinators and the other
controller fields are untouched. -/
theorem slash_loop_false_char (env : Env) :
    ∀ (l : List String) (c : Controller), l.Nodup →
      (∀ a ∈ l, ∃ nd, HMap.get? c.nodes a = some nd ∧
        DISQUALIFIED_NODE_PENALTY ≤ nd.staking) →
      ∃ c', forC (fun m cc => slash_node env m DISQUALIFIED_NODE_PENALTY 0 false cc) l c =
          .ok (.ok (), c') ∧
        c'.block_height = c.block_height ∧ c'.groups = c.groups ∧
        c'.rewards = c.rewards ∧ c'.coordinators = c.coordinators ∧
        c'.pending_signature_tasks = c.pending_signature_tasks ∧
        c'.verifiable_signature_rewards = c.verifiable_signature_rewards ∧
        (∀ a ∈ l, ∃ nd nd', HMap.get? c.nodes a = some nd ∧
          HMap.get? c'.nodes a = some nd' ∧
          nd'.staking = nd.staking - DISQUALIFIED_NODE_PENALTY) ∧
        (∀ a, a ∉ l → HMap.get? c'.nodes a = HMap.get? c.nodes a) := by
  intro l
  induction l with
  | nil =>
    intro c _ _
    exact ⟨c, rfl, rfl, rfl, rfl, rfl, rfl, rfl, by simp, fun a _ => rfl⟩
  | cons a t ih =>
    intro c hnd hrows
    rcases hrows a (by simp) with ⟨nd, hnd0, hstk⟩
    rcases slash_node_char env a DISQUALIFIED_NODE_PENALTY false c nd hnd0 hstk
      (by simp) with ⟨nd1, hs, hstk1⟩
    have hat : a ∉ t := (List.nodup_cons.1 hnd).1
    rcases ih { c with nodes := HMap.insert c.nodes a nd1 } (List.nodup_cons.1 hnd).2
      (by
        intro b hb
        rcases hrows b (List.mem_cons_of_mem _ hb) with ⟨ndb, hndb, hstkb⟩
        refine ⟨ndb, ?_, hstkb⟩
        have hba : a ≠ b := fun he => hat (he ▸ hb)
        simpa [HMap.get?_insert_ne _ _ _ _ hba] using hndb)
      with ⟨c', hrun, hbh, hgr, hrw, hco, hpt, hvr, hslashed, hother⟩
    refine ⟨c', ?_, hbh, hgr, hrw, hco, hpt, hvr, ?_, ?_⟩
    · simp only [forC, hs, bindC_ok]
      exact hrun
    · intro b hb
      rcases List.mem_cons.1 hb with rfl | hb
      · refine ⟨nd, nd1, hnd0, ?_, hstk1⟩
        rw [hother b hat]
        simp [HMap.get?_insert]
      · rcases hslashed b hb with ⟨ndb, ndb', h1, h2, h3⟩
        have hba : a ≠ b := fun he => hat (he ▸ hb)
        rw [HMap.get?_insert_ne _ _ _ _ hba] at h1
        exact ⟨ndb, ndb', h1, h2, h3⟩
    · intro b hb
      have hbt : b ∉ t := fun hx => hb (List.mem_cons_of_mem _ hx)
      have hba : a ≠ b := fun he => hb (he ▸ List.mem_cons_self a t)
      rw [hother b hbt, HMap.get?_insert_ne _ _ _ _ hba]


/-- The majority-branch slashing loop of `check_dkg_state`
(`checkSlashLoop`): under non-membership of the slashed nodes in any group
of the current state, every listed node's staking drops by the penalty
regardless of the string-length-derived `handle_group` flag. -/
theorem check_slash_loop_char (env : Env) :
    ∀ (l : List String) (idx : Nat) (c : Controller), l.Nodup →
      (∀ a ∈ l, a.length ≠ 0) →
      (∀ a ∈ l, ∃ nd, HMap.get? c.nodes a = some nd ∧
        DISQUALIFIED_NODE_PENALTY ≤ nd.staking) →
      (∀ a ∈ l, (HMap.vals c.groups).find?
        (fun g => HMap.contains g.members a) = none) →
      ∃ c', checkSlashLoop env idx l c = .ok (.ok (), c') ∧
        c'.block_height = c.block_height ∧ c'.groups = c.groups ∧
        c'.rewards = c.rewards ∧ c'.coordinators = c.coordinators ∧
        c'.pending_signature_tasks = c.pending_signature_tasks ∧
        c'.verifiable_signature_rewards = c.verifiable_signature_rewards ∧
        (∀ a ∈ l, ∃ nd nd', HMap.get? c.nodes a = some nd ∧
          HMap.get? c'.nodes a = some nd' ∧
          nd'.staking = nd.staking - DISQUALIFIED_NODE_PENALTY) ∧
        (∀ a, a ∉ l → HMap.get? c'.nodes a = HMap.get? c.nodes a) := by
  intro l
  induction l with
  | nil =>
    intro idx c _ _ _ _
    exact ⟨c, rfl, rfl, rfl, rfl, rfl, rfl, rfl, by simp, fun a _ => rfl⟩
  | cons a t ih =>
    intro idx c hnd hlen hrows hng
    rcases hrows a (by simp) with ⟨nd, hnd0, hstk⟩
    rcases slash_node_char env a DISQUALIFIED_NODE_PENALTY
      (decide (idx = a.length - 1)) c nd hnd0 hstk
      (fun _ => hng a (by simp)) with ⟨nd1, hs, hstk1⟩
    have hat : a ∉ t := (List.nodup_cons.1 hnd).1
    rcases ih (idx + 1) { c with nodes := HMap.insert c.nodes a nd1 }
      (List.nodup_cons.1 hnd).2
      (fun b hb => hlen b (List.mem_cons_of_mem _ hb))
      (by
        intro b hb
        rcases hrows b (List.mem_cons_of_mem _ hb) with ⟨ndb, hndb, hstkb⟩
        refine ⟨ndb, ?_, hstkb⟩
        have hba : a ≠ b := fun he => hat (he ▸ hb)
        simpa [HMap.get?_insert_ne _ _ _ _ hba] using hndb)
      (fun b hb => hng b (List.mem_cons_of_mem _ hb))
      with ⟨c', hrun, hbh, hgr, hrw, hco, hpt, hvr, hslashed, hother⟩
    refine ⟨c', ?_, hbh, hgr, hrw, hco, hpt, hvr, ?_, ?_⟩
    · simp only [checkSlashLoop]
      rw [if_neg (hlen a (by simp))]
      simp only [hs, bindC_ok]
      exact hrun
    · intro b hb
      rcases List.mem_cons.1 hb with rfl | hb
      · refine ⟨nd, nd1, hnd0, ?_, hstk1⟩
        rw [hother b hat]
        simp [HMap.get?_insert]
      · rcases hslashed b hb with ⟨ndb, ndb', h1, h2, h3⟩
        have hba : a ≠ b := fun he => hat (he ▸ hb)
        rw [HMap.get?_insert_ne _ _ _ _ hba] at h1
        exact ⟨ndb, ndb', h1, h2, h3⟩
    · intro b hb
      have hbt : b ∉ t := fun hx => hb (List.mem_cons_of_mem _ hx)
      have hba : a ≠ b := fun he => hb (he ▸ List.mem_cons_self a t)
      rw [hother b hbt, HMap.get?_insert_ne _ _ _ _ hba]


theorem HMap.mem_insert_cases {K V : Type} [DecidableEq K] {m : HMap K V}
    {k : K} {v : V} {p : K × V} (hnd : (HMap.keys m).Nodup)
    (h : p ∈ HMap.insert m k v) :
    p = (k, v) ∨ (p ∈ m ∧ p.1 ≠ k) := by
  induction m with
  | nil => simp [HMap.insert] at h; exact Or.inl h
  | cons q t ih =>
    have hq1 : q.1 ∉ HMap.keys t := by
      have := (List.nodup_cons.1 hnd).1
      simpa [HMap.keys] using this
    have hndt : (HMap.keys t).Nodup := (List.nodup_cons.1 hnd).2
    by_cases hq : q.1 = k
    · simp only [HMap.insert, hq, if_true] at h
      rcases List.mem_cons.1 h with rfl | h
      · exact Or.inl rfl
      · refine Or.inr ⟨List.mem_cons_of_mem _ h, fun hpk => ?_⟩
        exact hq1 (hq ▸ hpk ▸ List.mem_map_of_mem Prod.fst h)
    · simp only [HMap.insert, hq, if_false] at h
      rcases List.mem_cons.1 h with rfl | h
      · exact Or.inr ⟨List.mem_cons_self _ _, hq⟩
      · rcases ih hndt h with h1 | ⟨h1, h2⟩
        · exact Or.inl h1
        · exact Or.inr ⟨List.mem_cons_of_mem _ h1, h2⟩

theorem HMap.get?_filter_of_pred_false {K V : Type} [DecidableEq K]
    (m : HMap K V) (f : K × V → Bool) (k : K) (h : ∀ v, f (k, v) = false) :
    HMap.get? (m.filter f) k = none := by
  induction m with
  | nil => rfl
  | cons p t ih =>
    by_cases hf : f p = true
    · simp only [List.filter_cons_of_pos hf, HMap.get?]
      by_cases hk : p.1 = k
      · exfalso
        have h2 : f (k, p.2) = false := h p.2
        rw [← hk] at h2
        simp [hf] at h2
      · simp [hk, ih]
    · simp only [List.filter_cons_of_neg (by simpa using hf)]
      exact ih

/-- C4: on a not-ready group whose coordinator exists at the group epoch and
whose phase windows have all elapsed, `check_dkg_state` (a) with no strict
majority wipes the group — size and threshold zeroed, members cleared, and
every former member slashed by `DISQUALIFIED_NODE_PENALTY` — and (b) with a
strict majority keeps exactly the members in the majority set and slashes
the rest; in either branch the caller's reward balance grows by
`COORDINATOR_STATE_TRIGGER_REWARD` and the Coordinator instance for the
group is removed. -/
theorem check_dkg_state_spec (env : Env) (c : Controller) (id : String) (gi : Nat)
    (g : Group) (coe : String × Coordinator)
    (hg : HMap.get? c.groups gi = some g) (hnr : g.state = false)
    (hco : HMap.get? c.coordinators gi = some coe)
    (hce : ¬ coe.2.epoch < g.epoch)
    (hended : coe.2.in_phase = .error CoordinatorError.DKGEnded) :
    (get_strictly_majority_identical_commitment_result g.commit_cache = (none, []) →
      (HMap.keys g.members).Nodup →
      (∀ a ∈ HMap.keys g.members, ∃ nd, HMap.get? c.nodes a = some nd ∧
        DISQUALIFIED_NODE_PENALTY ≤ nd.staking) →
      ∃ c', check_dkg_state env id gi c = .ok (.ok (), c') ∧
        HMap.get? c'.groups gi = some { g with size := 0, threshold := 0, members := [] } ∧
        (∀ a ∈ HMap.keys g.members, ∃ nd nd', HMap.get? c.nodes a = some nd ∧
          HMap.get? c'.nodes a = some nd' ∧
          nd'.staking = nd.staking - DISQUALIFIED_NODE_PENALTY) ∧
        HMap.get? c'.rewards id =
          some ((HMap.get? c.rewards id).getD 0 + COORDINATOR_STATE_TRIGGER_REWARD) ∧
        HMap.get? c'.coordinators gi = none) ∧
    (∀ r ms, get_strictly_majority_identical_commitment_result g.commit_cache = (some r, ms) →
      ∀ disq, disq = (HMap.keys g.members).filter (fun m => ¬ ms.contains m) →
      disq.length ≤ g.size →
      (HMap.keys g.members).Nodup →
      (HMap.keys c.groups).Nodup →
      (∀ a ∈ disq, a.length ≠ 0) →
      (∀ a ∈ disq, ∃ nd, HMap.get? c.nodes a = some nd ∧
        DISQUALIFIED_NODE_PENALTY ≤ nd.staking) →
      (∀ a ∈ disq, ∀ p ∈ c.groups, p.1 ≠ gi → HMap.contains p.2.members a = false) →
      ∃ c', check_dkg_state env id gi c = .ok (.ok (), c') ∧
        HMap.get? c'.groups gi = some { g with size := g.size - disq.length, members := g.members.filter (fun p => ¬ disq.contains p.1) } ∧
        (∀ a ∈ disq, ∃ nd nd', HMap.get? c.nodes a = some nd ∧
          HMap.get? c'.nodes a = some nd' ∧
          nd'.staking = nd.staking - DISQUALIFIED_NODE_PENALTY) ∧
        (∀ a, a ∉ disq → HMap.get? c'.nodes a = HMap.get? c.nodes a) ∧
        HMap.get? c'.rewards id =
          some ((HMap.get? c.rewards id).getD 0 + COORDINATOR_STATE_TRIGGER_REWARD) ∧
        HMap.get? c'.coordinators gi = none) := by
  constructor
  · intro hmaj hnodup hrows
    simp only [check_dkg_state, hg, hco, hended, hmaj]
    rw [if_neg (by simp [hnr])]
    rw [if_neg hce]
    rcases slash_loop_false_char env (HMap.keys g.members)
      { c with groups := HMap.insert c.groups gi { g with size := 0, threshold := 0, members := [] } }
      hnodup (by simpa using hrows)
      with ⟨c2, hrun, hbh, hgr, hrw, hcoo, hpt, hvr, hslashed, hother⟩
    rw [hrun]
    simp only [bindC_ok, finishCheck]
    refine ⟨_, rfl, ?_, ?_, ?_, ?_⟩
    · show HMap.get? c2.groups gi = _
      rw [hgr]
      simp [HMap.get?_insert]
    · intro a ha
      exact hslashed a ha
    · show HMap.get? (HMap.insert c2.rewards id _) id = _
      rw [HMap.get?_insert, hrw]
    · show HMap.get? (HMap.erase c2.coordinators gi) gi = none
      exact HMap.get?_erase_self _ _
  · intro r ms hmaj disq hdisq hsz hnodup hgnd hlenne hrows hng
    subst hdisq
    simp only [check_dkg_state, hg, hco, hended, hmaj]
    rw [if_neg (by simp [hnr])]
    rw [if_neg hce]
    rw [if_neg (by omega)]
    have hfind : ∀ a ∈ (HMap.keys g.members).filter (fun m => ¬ ms.contains m),
        (HMap.vals (HMap.insert c.groups gi { g with size := g.size - ((HMap.keys g.members).filter (fun m => ¬ ms.contains m)).length, members := g.members.filter (fun p => ¬ ((HMap.keys g.members).filter (fun m => ¬ ms.contains m)).contains p.1) })).find?
          (fun g' => HMap.contains g'.members a) = none := by
      intro a ha
      rw [List.find?_eq_none]
      intro x hx
      rcases List.mem_map.1 hx with ⟨p, hp, rfl⟩
      rcases HMap.mem_insert_cases hgnd hp with rfl | ⟨hpm, hpk⟩
      · have hnone : HMap.get? (g.members.filter (fun p => ¬ ((HMap.keys g.members).filter (fun m => ¬ ms.contains m)).contains p.1)) a = none := by
          apply HMap.get?_filter_of_pred_false
          intro v
          simp only [decide_eq_false_iff_not, not_not]
          exact List.elem_eq_true_of_mem ha
        simp only [HMap.contains, hnone, Option.isSome_none]
        simp
      · simp [hng a ha p hpm hpk]
    rcases check_slash_loop_char env ((HMap.keys g.members).filter (fun m => ¬ ms.contains m)) 0
      { c with groups := HMap.insert c.groups gi { g with size := g.size - ((HMap.keys g.members).filter (fun m => ¬ ms.contains m)).length, members := g.members.filter (fun p => ¬ ((HMap.keys g.members).filter (fun m => ¬ ms.contains m)).contains p.1) } }
      (hnodup.filter _) hlenne (by simpa using hrows) hfind
      with ⟨c2, hrun, hbh, hgr, hrw, hcoo, hpt, hvr, hslashed, hother⟩
    rw [hrun]
    simp only [bindC_ok, finishCheck]
    refine ⟨_, rfl, ?_, ?_, ?_, ?_, ?_⟩
    · show HMap.get? c2.groups gi = _
      rw [hgr]
      simp [HMap.get?_insert]
    · intro a ha
      exact hslashed a ha
    · intro a ha
      exact hother a ha
    · show HMap.get? (HMap.insert c2.rewards id _) id = _
      rw [HMap.get?_insert, hrw]
    · show HMap.get? (HMap.erase c2.coordinators gi) gi = none
      exact HMap.get?_erase_self _ _


def c4coord : Coordinator :=
  { epoch := 3, threshold := 3, phase_duration := 1, started := true,
    start_block := 0, block_height := 100, participants := [],
    shares := [], responses := [], justifications := [] }

def c4group : Group :=
  { index := 1, epoch := 3, capacity := 10, size := 3, threshold := 3, state := false,
    public_key := [],
    members := [("0x1", ⟨0, "0x1", []⟩), ("0x2", ⟨1, "0x2", []⟩), ("0x3", ⟨2, "0x3", []⟩)],
    committers := [], commit_cache := [] }

def c4state : Controller :=
  { Controller.new 42 "0xctrl" with
      groups := [(1, c4group)],
      nodes := [("0x1", ⟨"0x1", [9], true, 0, 50000⟩),
                ("0x2", ⟨"0x2", [9], true, 0, 50000⟩),
                ("0x3", ⟨"0x3", [9], true, 0, 50000⟩)],
      rewards := [("0x1", 0), ("0x2", 0), ("0x3", 0)],
      coordinators := [(1, ("0xcoordinator1", c4coord))] }

/-- C4 (witness): the wipe branch of `check_dkg_state_spec` applied to a
concrete not-ready group with an empty commit cache and an ended
coordinator. -/
theorem check_dkg_state_spec_witness :
    ∃ c', check_dkg_state c9env "0xcaller" 1 c4state = .ok (.ok (), c') ∧
      HMap.get? c'.groups 1 = some { c4group with size := 0, threshold := 0, members := [] } ∧
      (∀ a ∈ HMap.keys c4group.members, ∃ nd nd',
        HMap.get? c4state.nodes a = some nd ∧ HMap.get? c'.nodes a = some nd' ∧
        nd'.staking = nd.staking - DISQUALIFIED_NODE_PENALTY) ∧
      HMap.get? c'.rewards "0xcaller" =
        some ((HMap.get? c4state.rewards "0xcaller").getD 0 + COORDINATOR_STATE_TRIGGER_REWARD) ∧
      HMap.get? c'.coordinators 1 = none :=
  (check_dkg_state_spec c9env c4state "0xcaller" 1 c4group ("0xcoordinator1", c4coord)
    (by decide) (by decide) (by decide) (by decide) (by decide)).1
    (by decide) (by decide)
    (by
      intro a ha
      have ha3 : a = "0x1" ∨ a = "0x2" ∨ a = "0x3" := by
        simpa [HMap.keys, c4group] using ha
      rcases ha3 with rfl | rfl | rfl
      · exact ⟨⟨"0x1", [9], true, 0, 50000⟩, by decide, by decide⟩
      · exact ⟨⟨"0x2", [9], true, 0, 50000⟩, by decide, by decide⟩
      · exact ⟨⟨"0x3", [9], true, 0, 50000⟩, by decide, by decide⟩)


/-! ## Claim C2: the strictly-majority-identical commitment rule

`get_strictly_majority_identical_commitment_result` folds over the
commitment classes keeping the largest-so-far class; the strict flag
survives exactly when a unique class of maximal size exists. -/

/-- Maximal class size of a list of commitment classes. -/
def maxLen : List (CommitResult × List String) → Nat
  | [] => 0
  | p :: t => max p.2.length (maxLen t)

/-- Number of classes attaining the maximal size. -/
def maxCount (l : List (CommitResult × List String)) : Nat :=
  (l.filter (fun p => p.2.length = maxLen l)).length

theorem maxLen_append (l : List (CommitResult × List String))
    (c : CommitResult × List String) :
    maxLen (l ++ [c]) = max (maxLen l) c.2.length := by
  induction l with
  | nil => simp [maxLen]
  | cons p t ih =>
    show max p.2.length (maxLen (t ++ [c])) = _
    rw [ih]
    show _ = max (max p.2.length (maxLen t)) c.2.length
    omega

theorem le_maxLen (l : List (CommitResult × List String))
    (p : CommitResult × List String) (hp : p ∈ l) : p.2.length ≤ maxLen l := by
  induction l with
  | nil => simp at hp
  | cons q t ih =>
    rcases List.mem_cons.1 hp with rfl | hp
    · simp [maxLen]
    · simp only [maxLen]
      exact le_trans (ih hp) (le_max_right _ _)

/-- The fold of `get_strictly_majority_identical_commitment_result`: the
carried class realizes the maximal size, belongs to the list when non-empty,
and the strict flag holds exactly when a single class attains the maximum. -/
theorem majorityFold_char (l : List (CommitResult × List String))
    (hne : ∀ p ∈ l, p.2 ≠ []) :
    (majorityFold l).2.1.length = maxLen l ∧
    (l ≠ [] → ∃ r, (majorityFold l).1 = some r ∧ (r, (majorityFold l).2.1) ∈ l) ∧
    ((majorityFold l).2.2 = true ↔ (l ≠ [] ∧ maxCount l = 1)) := by
  induction l using List.reverseRecOn with
  | nil => simp [majorityFold, maxLen, maxCount]
  | append_singleton l c ih =>
    have hnel : ∀ p ∈ l, p.2 ≠ [] := fun p hp => hne p (List.mem_append_left _ hp)
    have hnec : c.2 ≠ [] := hne c (List.mem_append_right _ (by simp))
    rcases ih hnel with ⟨ihlen, ihmem, ihflag⟩
    have hstep : majorityFold (l ++ [c]) = majorityStep (majorityFold l) c := by
      simp [majorityFold, List.foldl_append]
    have hml : maxLen (l ++ [c]) = max (maxLen l) c.2.length := maxLen_append l c
    rcases Nat.lt_trichotomy (maxLen l) c.2.length with hgt | heq | hlt
    · -- the new class is strictly larger than everything so far
      have hstep2 : majorityFold (l ++ [c]) = (some c.1, c.2, true) := by
        rw [hstep, majorityStep, if_pos (by omega)]
      have hmax : maxLen (l ++ [c]) = c.2.length := by omega
      refine ⟨by rw [hstep2, hmax], ?_, ?_⟩
      · intro _
        exact ⟨c.1, by rw [hstep2], by rw [hstep2]; simp⟩
      · rw [hstep2]
        simp only [true_iff]
        constructor
        · simp
        · unfold maxCount
          rw [List.filter_append, hmax]
          have hfl : l.filter (fun p => p.2.length = c.2.length) = [] := by
            rw [List.filter_eq_nil_iff]
            intro p hp
            have := le_maxLen l p hp
            simp only [decide_eq_true_eq]
            omega
          rw [hfl]
          simp
    · -- a tie with the running maximum
      have hlne : l ≠ [] := by
        intro he
        subst he
        simp [maxLen] at heq
        exact hnec (List.eq_nil_of_length_eq_zero heq.symm)
      have hstep2 : majorityFold (l ++ [c]) =
          ((majorityFold l).1, (majorityFold l).2.1, false) := by
        rw [hstep, majorityStep, if_neg (by omega), if_pos (by omega)]
      have hmax : maxLen (l ++ [c]) = maxLen l := by omega
      refine ⟨by rw [hstep2]; simpa [hmax] using ihlen, ?_, ?_⟩
      · intro _
        rcases ihmem hlne with ⟨r, hr, hrm⟩
        exact ⟨r, by rw [hstep2]; exact hr, by rw [hstep2]; exact List.mem_append_left _ hrm⟩
      · rw [hstep2]
        simp only [Bool.false_eq_true, false_iff, not_and]
        intro _
        unfold maxCount
        rw [List.filter_append, hmax]
        rcases ihmem hlne with ⟨r, _, hrm⟩
        have hmemf : (r, (majorityFold l).2.1) ∈
            l.filter (fun p => p.2.length = maxLen l) := by
          rw [List.mem_filter]
          exact ⟨hrm, by simp [ihlen]⟩
        have h1 : 1 ≤ (l.filter (fun p => p.2.length = maxLen l)).length :=
          List.length_pos.2 (fun he => by simp [he] at hmemf)
        have hcf : (List.filter (fun p => decide (p.2.length = maxLen l)) [c]).length = 1 := by
          simp [heq]
        rw [List.length_append, hcf]
        omega
    · -- the new class is smaller: the accumulator is unchanged
      have hlne : l ≠ [] := by
        intro he
        subst he
        simp [maxLen] at hlt
      have hstep2 : majorityFold (l ++ [c]) = majorityFold l := by
        rw [hstep, majorityStep, if_neg (by omega), if_neg (by omega)]
      have hmax : maxLen (l ++ [c]) = maxLen l := by omega
      refine ⟨by rw [hstep2, hmax]; exact ihlen, ?_, ?_⟩
      · intro _
        rcases ihmem hlne with ⟨r, hr, hrm⟩
        exact ⟨r, by rw [hstep2]; exact hr, by rw [hstep2]; exact List.mem_append_left _ hrm⟩
      · rw [hstep2]
        have hcnt : maxCount (l ++ [c]) = maxCount l := by
          unfold maxCount
          rw [List.filter_append, hmax]
          have hcf : List.filter (fun p => decide (p.2.length = maxLen l)) [c] = [] := by
            simp
            omega
          rw [hcf]
          simp
        rw [hcnt]
        constructor
        · intro hf
          exact ⟨by simp, (ihflag.1 hf).2⟩
        · intro ⟨_, hcount⟩
          exact ihflag.2 ⟨hlne, hcount⟩


theorem addCommit_vals_ne (r : CommitResult) (m : String) :
    ∀ (acc : List (CommitResult × List String)), (∀ p ∈ acc, p.2 ≠ []) →
      ∀ p ∈ addCommit acc r m, p.2 ≠ [] := by
  intro acc
  induction acc with
  | nil =>
    intro _ p hp
    simp only [addCommit, List.mem_singleton] at hp
    subst hp
    simp
  | cons q t ih =>
    rcases q with ⟨r', ms⟩
    intro h p hp
    simp only [addCommit] at hp
    by_cases hq : r' = r
    · rw [if_pos hq] at hp
      rcases List.mem_cons.1 hp with rfl | hp
      · simp
      · exact h p (List.mem_cons_of_mem _ hp)
    · rw [if_neg hq] at hp
      rcases List.mem_cons.1 hp with rfl | hp
      · exact h _ (List.mem_cons_self _ _)
      · exact ih (fun x hx => h x (List.mem_cons_of_mem _ hx)) p hp

theorem addCommit_keys (acc : List (CommitResult × List String))
    (r : CommitResult) (m : String) :
    (addCommit acc r m).map Prod.fst =
      if r ∈ acc.map Prod.fst then acc.map Prod.fst
      else acc.map Prod.fst ++ [r] := by
  induction acc with
  | nil => simp [addCommit]
  | cons q t ih =>
    rcases q with ⟨r', ms⟩
    by_cases hq : r' = r
    · subst hq
      simp [addCommit]
    · simp only [addCommit, hq, if_false, List.map_cons]
      rw [ih]
      by_cases hr : r ∈ t.map Prod.fst
      · rw [if_pos hr, if_pos (by simp [hr])]
      · rw [if_neg hr, if_neg (by simp [hr, Ne.symm hq])]
        simp

theorem groupCommits_aux (l : List (String × CommitCache)) :
    ∀ (acc : List (CommitResult × List String)),
      (∀ p ∈ acc, p.2 ≠ []) → (acc.map Prod.fst).Nodup →
      (∀ p ∈ l.foldl (fun acc p => addCommit acc p.2.commit_result p.1) acc, p.2 ≠ []) ∧
      ((l.foldl (fun acc p => addCommit acc p.2.commit_result p.1) acc).map Prod.fst).Nodup := by
  induction l with
  | nil => intro acc h1 h2; exact ⟨h1, h2⟩
  | cons q t ih =>
    intro acc h1 h2
    apply ih
    · exact addCommit_vals_ne _ _ acc h1
    · rw [addCommit_keys]
      by_cases hr : q.2.commit_result ∈ acc.map Prod.fst
      · rw [if_pos hr]; exact h2
      · rw [if_neg hr]
        refine List.Nodup.append h2 (List.nodup_singleton _) ?_
        intro a ha hb
        rw [List.mem_singleton] at hb
        subst hb
        exact hr ha

theorem groupCommits_vals_ne (cache : HMap String CommitCache) :
    ∀ p ∈ groupCommits cache, p.2 ≠ [] :=
  (groupCommits_aux cache [] (by simp) (by simp)).1

theorem groupCommits_keys_nodup (cache : HMap String CommitCache) :
    ((groupCommits cache).map Prod.fst).Nodup :=
  (groupCommits_aux cache [] (by simp) (by simp)).2

theorem eq_of_mem_keysNodup :
    ∀ {l : List (CommitResult × List String)} {r : CommitResult} {x y : List String},
      (l.map Prod.fst).Nodup → (r, x) ∈ l → (r, y) ∈ l → x = y := by
  intro l
  induction l with
  | nil => intro r x y _ hx; simp at hx
  | cons q t ih =>
    intro r x y hnd hx hy
    rw [List.map_cons] at hnd
    rcases List.nodup_cons.1 hnd with ⟨hq, hndt⟩
    rcases List.mem_cons.1 hx with he | hx2
    · subst he
      rcases List.mem_cons.1 hy with he2 | hy2
      · have h6 := congrArg Prod.snd he2
        exact h6.symm
      · exact absurd (show r ∈ List.map Prod.fst t from List.mem_map_of_mem Prod.fst hy2)
          (show r ∉ List.map Prod.fst t from hq)
    · rcases List.mem_cons.1 hy with he2 | hy2
      · subst he2
        exact absurd (show r ∈ List.map Prod.fst t from List.mem_map_of_mem Prod.fst hx2)
          (show r ∉ List.map Prod.fst t from hq)
      · exact ih hndt hx2 hy2

theorem nodup_all_eq_singleton {α : Type} {l : List α} {a : α}
    (hnd : l.Nodup) (ha : a ∈ l) (hall : ∀ x ∈ l, x = a) : l = [a] := by
  cases l with
  | nil => simp at ha
  | cons x t =>
    have hx : x = a := hall x (List.mem_cons_self _ _)
    subst hx
    have ht : t = [] := by
      rw [List.eq_nil_iff_forall_not_mem]
      intro y hy
      have hya : y = x := hall y (List.mem_cons_of_mem _ hy)
      subst hya
      exact (List.nodup_cons.1 hnd).1 hy
    rw [ht]

/-- A class of structurally equal `CommitResult`s that is strictly larger
than every other class. -/
def isStrictMajorityClass (classes : List (CommitResult × List String))
    (r : CommitResult) (ms : List String) : Prop :=
  (r, ms) ∈ classes ∧ ∀ p ∈ classes, p.1 ≠ r → p.2.length < ms.length

/-- The majority computation returns `(some r, ms)` exactly when `(r, ms)`
is the unique strictly largest commitment class of the cache. -/
theorem get_strictly_majority_spec (cache : HMap String CommitCache)
    (r : CommitResult) (ms : List String) :
    get_strictly_majority_identical_commitment_result cache = (some r, ms) ↔
      isStrictMajorityClass (groupCommits cache) r ms := by
  have hne := groupCommits_vals_ne cache
  have hnd := groupCommits_keys_nodup cache
  have hndl : (groupCommits cache).Nodup := hnd.of_map
  rcases majorityFold_char (groupCommits cache) hne with ⟨hlen, hmem, hflag⟩
  constructor
  · intro h
    unfold get_strictly_majority_identical_commitment_result at h
    by_cases hf : (majorityFold (groupCommits cache)).2.2 = true
    · rw [if_pos hf] at h
      have h1 : (majorityFold (groupCommits cache)).1 = some r := congrArg Prod.fst h
      have h2 : (majorityFold (groupCommits cache)).2.1 = ms := congrArg Prod.snd h
      rcases hflag.1 hf with ⟨hlne, hcount⟩
      rcases hmem hlne with ⟨r0, hr0, hr0m⟩
      rw [h1] at hr0
      have hr0r : r0 = r := (Option.some.inj hr0).symm
      rw [hr0r, h2] at hr0m
      refine ⟨hr0m, ?_⟩
      intro p hp hpr
      by_contra hge
      have hple := le_maxLen _ p hp
      rw [← hlen, h2] at hple
      have hpe : p.2.length = ms.length := by omega
      unfold maxCount at hcount
      rcases List.length_eq_one.1 hcount with ⟨z, hz⟩
      have hpz : p ∈ (groupCommits cache).filter
          (fun q => q.2.length = maxLen (groupCommits cache)) := by
        rw [List.mem_filter]
        refine ⟨hp, by simp [hpe, ← hlen, h2]⟩
      have hrz : (r, ms) ∈ (groupCommits cache).filter
          (fun q => q.2.length = maxLen (groupCommits cache)) := by
        rw [List.mem_filter]
        refine ⟨hr0m, by simp [← hlen, h2]⟩
      rw [hz] at hpz hrz
      have hprm : p = (r, ms) := by
        rw [List.mem_singleton.1 hpz, ← List.mem_singleton.1 hrz]
      exact hpr (by rw [hprm])
    · rw [if_neg hf] at h
      exact absurd (congrArg Prod.fst h) (by simp)
  · intro ⟨hmem2, hlt⟩
    have hlne : groupCommits cache ≠ [] := by
      intro he
      rw [he] at hmem2
      simp at hmem2
    rcases hmem hlne with ⟨r0, hr0, hr0m⟩
    have hr0r : r0 = r := by
      by_contra hne2
      have h3 := hlt _ hr0m (by simpa using hne2)
      have h2 := le_maxLen _ (r, ms) hmem2
      simp only at h2 h3
      omega
    rw [hr0r] at hr0 hr0m
    have hms : (majorityFold (groupCommits cache)).2.1 = ms :=
      eq_of_mem_keysNodup hnd hr0m hmem2
    have hmaxms : maxLen (groupCommits cache) = ms.length := by
      rw [← hlen, hms]
    have hcount : maxCount (groupCommits cache) = 1 := by
      unfold maxCount
      have hfilter : (groupCommits cache).filter
          (fun q => q.2.length = maxLen (groupCommits cache)) = [(r, ms)] := by
        apply nodup_all_eq_singleton (hndl.filter _)
        · rw [List.mem_filter]
          exact ⟨hmem2, by simp [hmaxms]⟩
        · intro x hx
          rcases List.mem_filter.1 hx with ⟨hxm, hxl⟩
          have hxlen : x.2.length = ms.length := by
            have h4 := of_decide_eq_true hxl
            omega
          have hx1 : x.1 = r := by
            by_contra hne2
            have h5 := hlt x hxm hne2
            omega
          rcases x with ⟨x1, x2⟩
          simp only at hx1
          subst hx1
          rw [eq_of_mem_keysNodup hnd hxm hmem2]
      rw [hfilter]
      rfl
    have hf : (majorityFold (groupCommits cache)).2.2 = true :=
      hflag.2 ⟨hlne, hcount⟩
    unfold get_strictly_majority_identical_commitment_result
    rw [if_pos hf, hr0, hms]


/-- Full characterization of `commit_dkg` on a not-yet-ready group: the
commit cache always grows by the caller\'s commit; the group finalizes
exactly when a unique strictly largest commitment class reaches the
threshold, in which case the ready flag, size, public key, partial public
keys, committers, membership and slashing all change as described. (Core
lemma, shared by the finalization results below.) -/
theorem commit_dkg_finalize_core (env : Env) (c : Controller) (id : String)
    (gi ge : Nat) (pk ppk : Bytes) (disq0 : List String) (g : Group)
    (hg : HMap.get? c.groups gi = some g) (hnr : g.state = false)
    (hpk : env.g1Valid pk = true) (hppk : env.g1Valid ppk = true)
    (hmem : HMap.contains g.members id = true) (hep : g.epoch = ge)
    (hnc : HMap.contains g.commit_cache id = false) :
    ∀ cache', cache' = HMap.insert g.commit_cache id ⟨⟨ge, pk, disq0⟩, ppk⟩ →
    ((∀ r ms, isStrictMajorityClass (groupCommits cache') r ms →
        g.threshold ≤ ms.length → False) →
      commit_dkg env id gi ge pk ppk disq0 c =
        .ok (.ok (), withGroup c gi { g with commit_cache := cache' })) ∧
    (∀ r ms, isStrictMajorityClass (groupCommits cache') r ms →
      g.threshold ≤ ms.length →
      r.disqualified_nodes.length ≤ g.size →
      r.disqualified_nodes.Nodup →
      ∀ members1, writePartials r.disqualified_nodes cache' g.members = some members1 →
      ∀ cis, choose_randomly_from_indices env c.last_output
        ((HMap.vals members1).map (fun m => m.index))
        (max DEFAULT_COMMITTERS_SIZE g.threshold) = some cis →
      ∀ ncs, lookupAll (members1.foldl (fun acc p => HMap.insert acc p.2.index p.1) []) cis = some ncs →
      (∀ a ∈ r.disqualified_nodes, ∃ nd, HMap.get? c.nodes a = some nd ∧
        DISQUALIFIED_NODE_PENALTY ≤ nd.staking) →
      ∃ c', commit_dkg env id gi ge pk ppk disq0 c = .ok (.ok (), c') ∧
        HMap.get? c'.groups gi = some
          { g with state := true, size := g.size - r.disqualified_nodes.length, public_key := r.public_key, members := members1.filter (fun p => ¬ r.disqualified_nodes.contains p.1), committers := g.committers ++ ncs, commit_cache := cache' } ∧
        (∀ a ∈ r.disqualified_nodes, ∃ nd nd', HMap.get? c.nodes a = some nd ∧
          HMap.get? c'.nodes a = some nd' ∧
          nd'.staking = nd.staking - DISQUALIFIED_NODE_PENALTY)) := by
  intro cache' hcache
  have hcont : HMap.contains c.groups gi = true := HMap.contains_of_get? hg
  constructor
  · intro hnomaj
    simp only [commit_dkg, hcont, hpk, hppk, hg, hmem, hnc, Bool.true_eq_false,
      not_true, Bool.not_eq_true, if_false, if_true]
    rw [if_neg (by simp [hep])]
    rw [← hcache]
    rw [if_neg (show ¬ (({ g with commit_cache := cache' } : Group).state = true) by simp [hnr])]
    cases hres : get_strictly_majority_identical_commitment_result cache' with
    | mk o ms =>
      cases o with
      | none => rfl
      | some r =>
        have hmaj := (get_strictly_majority_spec cache' r ms).1 hres
        simp only [Bool.false_eq_true, if_false]
        rw [if_neg (fun hth => hnomaj r ms hmaj hth)]
        rfl
  · intro r ms hmaj hth hsz hdnd members1 hwp cis hch ncs hlk hrows
    have hres : get_strictly_majority_identical_commitment_result cache' = (some r, ms) :=
      (get_strictly_majority_spec cache' r ms).2 hmaj
    simp only [commit_dkg, hcont, hpk, hppk, hg, hmem, hnc, Bool.true_eq_false,
      not_true, Bool.not_eq_true, if_false, if_true]
    rw [if_neg (by simp [hep])]
    rw [← hcache]
    rw [if_neg (show ¬ (({ g with commit_cache := cache' } : Group).state = true) by simp [hnr])]
    rw [hres]
    simp only [Bool.false_eq_true, if_false]
    rw [if_pos hth]
    rw [if_neg (by omega)]
    rw [hwp]
    dsimp only
    rw [hch]
    dsimp only
    rw [hlk]
    dsimp only
    rw [HMap.insert_insert_same]
    rcases slash_loop_false_char env r.disqualified_nodes
      { c with groups := HMap.insert c.groups gi { g with state := true, size := g.size - r.disqualified_nodes.length, public_key := r.public_key, members := List.filter (fun p => decide (r.disqualified_nodes.contains p.1 = false)) members1, committers := g.committers ++ ncs, commit_cache := cache' } }
      hdnd (by simpa using hrows)
      with ⟨c3, hrun, hbh, hgr, hrw, hcoo, hpt, hvr, hslashed, hother⟩
    rw [hrun]
    refine ⟨c3, rfl, ?_, ?_⟩
    · show HMap.get? c3.groups gi = _
      rw [hgr]
      simp [HMap.get?_insert]
    · intro a ha
      exact hslashed a ha


/-- C2 (amended): a valid `commit_dkg` call on a not-yet-ready group
partitions the updated commit cache by structural equality of
`CommitResult` and finalizes the group if and only if a unique strictly
largest class exists whose size reaches the group threshold; without one,
only the commit cache grows. On finalization the group becomes ready, the
disqualified count is subtracted from the size, the majority public key is
adopted, each non-disqualified cached committer's partial public key is
written, `max(3, threshold)` committers are elected by deterministic
sampling without replacement seeded with `last_output` from the indices of
*all* current members (including the disqualified ones, which are removed
right after the election), and every disqualified node is slashed. -/
theorem commit_dkg_finalization (env : Env) (c : Controller) (id : String)
    (gi ge : Nat) (pk ppk : Bytes) (disq0 : List String) (g : Group)
    (hg : HMap.get? c.groups gi = some g) (hnr : g.state = false)
    (hpk : env.g1Valid pk = true) (hppk : env.g1Valid ppk = true)
    (hmem : HMap.contains g.members id = true) (hep : g.epoch = ge)
    (hnc : HMap.contains g.commit_cache id = false) :
    ∀ cache', cache' = HMap.insert g.commit_cache id ⟨⟨ge, pk, disq0⟩, ppk⟩ →
    ((∀ r ms, isStrictMajorityClass (groupCommits cache') r ms →
        g.threshold ≤ ms.length → False) →
      commit_dkg env id gi ge pk ppk disq0 c =
        .ok (.ok (), withGroup c gi { g with commit_cache := cache' })) ∧
    (∀ r ms, isStrictMajorityClass (groupCommits cache') r ms →
      g.threshold ≤ ms.length →
      r.disqualified_nodes.length ≤ g.size →
      r.disqualified_nodes.Nodup →
      ∀ members1, writePartials r.disqualified_nodes cache' g.members = some members1 →
      ∀ cis, choose_randomly_from_indices env c.last_output
        ((HMap.vals members1).map (fun m => m.index))
        (max DEFAULT_COMMITTERS_SIZE g.threshold) = some cis →
      ∀ ncs, lookupAll (members1.foldl (fun acc p => HMap.insert acc p.2.index p.1) []) cis = some ncs →
      (∀ a ∈ r.disqualified_nodes, ∃ nd, HMap.get? c.nodes a = some nd ∧
        DISQUALIFIED_NODE_PENALTY ≤ nd.staking) →
      ∃ c', commit_dkg env id gi ge pk ppk disq0 c = .ok (.ok (), c') ∧
        HMap.get? c'.groups gi = some
          { g with state := true, size := g.size - r.disqualified_nodes.length, public_key := r.public_key, members := members1.filter (fun p => ¬ r.disqualified_nodes.contains p.1), committers := g.committers ++ ncs, commit_cache := cache' } ∧
        (∀ a ∈ r.disqualified_nodes, ∃ nd nd', HMap.get? c.nodes a = some nd ∧
          HMap.get? c'.nodes a = some nd' ∧
          nd'.staking = nd.staking - DISQUALIFIED_NODE_PENALTY)) :=
  commit_dkg_finalize_core env c id gi ge pk ppk disq0 g hg hnr hpk hppk hmem hep hnc

def c2wenv : Env :=
  { hashNat := fun _ => 0, hashBytes := fun _ => 0, g1Valid := fun _ => true,
    verify := fun _ _ _ => true, evalDecode := fun b => some b }

def c2commit : CommitCache := ⟨⟨5, [2], []⟩, [7]⟩

def c2group : Group :=
  { index := 1, epoch := 5, capacity := 10, size := 3, threshold := 3, state := false,
    public_key := [],
    members := [("n0", ⟨0, "n0", []⟩), ("n1", ⟨1, "n1", []⟩), ("n2", ⟨2, "n2", []⟩)],
    committers := [], commit_cache := [("n0", c2commit), ("n1", c2commit)] }

def c2state : Controller :=
  { Controller.new 7 "0xctrl" with
      groups := [(1, c2group)],
      nodes := [("n0", ⟨"n0", [9], true, 0, 50000⟩),
                ("n1", ⟨"n1", [9], true, 0, 50000⟩),
                ("n2", ⟨"n2", [9], true, 0, 50000⟩)],
      rewards := [("n0", 0), ("n1", 0), ("n2", 0)] }

def c2r : CommitResult := ⟨5, [2], []⟩

def c2cache : HMap String CommitCache :=
  HMap.insert c2group.commit_cache "n2" ⟨⟨5, [2], []⟩, [7]⟩

def c2members1 : HMap String Member :=
  [("n0", ⟨0, "n0", [7]⟩), ("n1", ⟨1, "n1", [7]⟩), ("n2", ⟨2, "n2", [7]⟩)]

/-- C2 (witness): the finalization theorem applied to a concrete group of
three members whose third identical commit reaches the threshold. -/
theorem commit_dkg_finalization_witness :
    ∃ c', commit_dkg c2wenv "n2" 1 5 [2] [7] [] c2state = .ok (.ok (), c') ∧
      HMap.get? c'.groups 1 = some
        { c2group with state := true, size := c2group.size - c2r.disqualified_nodes.length, public_key := c2r.public_key, members := c2members1.filter (fun p => ¬ c2r.disqualified_nodes.contains p.1), committers := c2group.committers ++ ["n0", "n1", "n2"], commit_cache := c2cache } ∧
      (∀ a ∈ c2r.disqualified_nodes, ∃ nd nd', HMap.get? c2state.nodes a = some nd ∧
        HMap.get? c'.nodes a = some nd' ∧
        nd'.staking = nd.staking - DISQUALIFIED_NODE_PENALTY) :=
  (commit_dkg_finalization c2wenv c2state "n2" 1 5 [2] [7] [] c2group
    (by decide) (by decide) (by decide) (by decide) (by decide) (by decide) (by decide)
    c2cache rfl).2 c2r ["n0", "n1", "n2"] ⟨by decide, by decide⟩
    (by decide) (by decide) (by decide) c2members1 (by decide) [0, 1, 2] (by decide)
    ["n0", "n1", "n2"] (by decide) (by simp [c2r])

/-- Claim C2 as stated: on finalization the committers are elected by
sampling from the *qualified* member indices — the indices of the members
that remain after the disqualified ones are removed. -/
def claim_C2_prop : Prop :=
  ∀ (env : Env) (c c' : Controller) (id : String) (gi ge : Nat) (pk ppk : Bytes)
    (disq0 : List String) (g g' : Group),
    HMap.get? c.groups gi = some g → g.state = false →
    commit_dkg env id gi ge pk ppk disq0 c = .ok (.ok (), c') →
    HMap.get? c'.groups gi = some g' → g'.state = true →
    ∀ cis, choose_randomly_from_indices env c.last_output
      ((HMap.vals g'.members).map (fun m => m.index))
      (max DEFAULT_COMMITTERS_SIZE g'.threshold) = some cis →
    ∀ ncs, lookupAll (g'.members.foldl (fun acc p => HMap.insert acc p.2.index p.1) []) cis = some ncs →
    g'.committers = ncs

def c2cenv : Env :=
  { hashNat := fun _ => 4, hashBytes := fun _ => 0, g1Valid := fun _ => true,
    verify := fun _ _ _ => true, evalDecode := fun b => some b }

def c2ccommit : CommitCache := ⟨⟨5, [2], ["n4"]⟩, [7]⟩

def c2cgroup : Group :=
  { index := 1, epoch := 5, capacity := 10, size := 5, threshold := 3, state := false,
    public_key := [],
    members := [("n0", ⟨0, "n0", []⟩), ("n1", ⟨1, "n1", []⟩), ("n2", ⟨2, "n2", []⟩),
                ("n3", ⟨3, "n3", []⟩), ("n4", ⟨4, "n4", []⟩)],
    committers := [], commit_cache := [("n0", c2ccommit), ("n1", c2ccommit)] }

def c2cstate : Controller :=
  { Controller.new 7 "0xctrl" with
      groups := [(1, c2cgroup)],
      nodes := [("n0", ⟨"n0", [9], true, 0, 50000⟩),
                ("n1", ⟨"n1", [9], true, 0, 50000⟩),
                ("n2", ⟨"n2", [9], true, 0, 50000⟩),
                ("n3", ⟨"n3", [9], true, 0, 50000⟩),
                ("n4", ⟨"n4", [9], true, 0, 50000⟩)],
      rewards := [("n0", 0), ("n1", 0), ("n2", 0), ("n3", 0), ("n4", 0)] }

def c2cpost : Controller :=
  match commit_dkg c2cenv "n2" 1 5 [2] [7] ["n4"] c2cstate with
  | .ok (_, c') => c'
  | .error _ => c2cstate

def c2cg : Group := (HMap.get? c2cpost.groups 1).getD c2cgroup

/-- C2 (counterexample): member `n2`'s commit finalizes the group with
`n4` disqualified, yet the elected committers are `[n4, n1, n0]` — the
sampling ran over the indices of *all* five members, with the disqualified
`n4`'s index still in the pool; sampling over the qualified member indices
`[0,1,2,3]`, as the claim states, would elect `[n1, n0, n2]`. The claim is
false. -/
theorem claim_C2_counterexample :
    HMap.get? c2cpost.groups 1 = some c2cg ∧ c2cg.state = true ∧
      c2cg.committers = ["n4", "n1", "n0"] ∧
      HMap.contains c2cg.members "n4" = false ∧
    ¬ claim_C2_prop := by
  refine ⟨by decide, by decide, by decide, by decide, ?_⟩
  intro h
  have h2 := h c2cenv c2cstate c2cpost "n2" 1 5 [2] [7] ["n4"] c2cgroup c2cg
    (by decide) (by decide) (by decide) (by decide) (by decide)
    [1, 0, 2] (by decide) ["n1", "n0", "n2"] (by decide)
  exact absurd h2 (by decide)


/-! ## Claim C3: invariants of ready groups

The claim asserts several invariants for every ready group in every
reachable state. At least one of them is false: a member that never
committed at the final epoch keeps its (possibly empty) partial public key
through the finalization, so a ready group can hold a member with an empty
partial public key. The invariants do hold at a *clean* finalization: no
disqualified nodes in the majority commitment, every member committed a
nonempty partial public key, and the group shape well-formed. -/

theorem HMap.contains_of_mem_keys {K V : Type} [DecidableEq K] :
    ∀ {m : HMap K V} {k : K}, k ∈ HMap.keys m → HMap.contains m k = true
  | [], k, h => absurd h (List.not_mem_nil k)
  | (k0, w) :: t, k, h => by
    by_cases hk : k0 = k
    · simp [HMap.contains, HMap.get?, hk]
    · have h' : k = k0 ∨ k ∈ HMap.keys t := by simpa [HMap.keys] using h
      have hkt : k ∈ HMap.keys t := by
        rcases h' with h1 | h1
        · exact absurd h1.symm hk
        · exact h1
      have ih := HMap.contains_of_mem_keys (m := t) hkt
      simpa [HMap.contains, HMap.get?, hk] using ih

theorem HMap.get?_mem {K V : Type} [DecidableEq K] :
    ∀ {m : HMap K V} {k : K} {v : V}, HMap.get? m k = some v → (k, v) ∈ m
  | [], _, _, h => by simp [HMap.get?] at h
  | (k0, w) :: t, k, v, h => by
    by_cases hk : k0 = k
    · subst hk
      simp only [HMap.get?, if_pos rfl] at h
      exact (Option.some.inj h) ▸ List.mem_cons_self _ _
    · simp only [HMap.get?, if_neg hk] at h
      exact List.mem_cons_of_mem _ (HMap.get?_mem h)

theorem HMap.get?_of_mem_nodup {K V : Type} [DecidableEq K] :
    ∀ {m : HMap K V} {k : K} {v : V}, (HMap.keys m).Nodup → (k, v) ∈ m →
      HMap.get? m k = some v
  | [], _, _, _, h => absurd h (List.not_mem_nil _)
  | (k0, w) :: t, k, v, hnd, h => by
    have hnd' : k0 ∉ HMap.keys t ∧ (HMap.keys t).Nodup := by
      simpa [HMap.keys] using hnd
    rcases List.mem_cons.1 h with h1 | h1
    · injection h1 with hk hv
      subst hk
      simp [HMap.get?, hv]
    · have hkkeys : k ∈ HMap.keys t := List.mem_map.2 ⟨(k, v), h1, rfl⟩
      have hk : k0 ≠ k := fun he => hnd'.1 (he ▸ hkkeys)
      simp only [HMap.get?, if_neg hk]
      exact HMap.get?_of_mem_nodup hnd'.2 h1

theorem HMap.mem_keys_insert {K V : Type} [DecidableEq K] :
    ∀ (m : HMap K V) (k k' : K) (v : V),
      k' ∈ HMap.keys (HMap.insert m k v) → k' = k ∨ k' ∈ HMap.keys m
  | [], k, k', v, h => by
    left
    simpa [HMap.insert, HMap.keys] using h
  | (k0, w) :: t, k, k', v, h => by
    by_cases hk : k0 = k
    · subst hk
      rw [show HMap.insert ((k0, w) :: t) k0 v = (k0, v) :: t from by
        simp [HMap.insert]] at h
      rcases List.mem_cons.1 h with h1 | h1
      · exact .inl h1
      · exact .inr (List.mem_cons_of_mem _ h1)
    · rw [show HMap.insert ((k0, w) :: t) k v = (k0, w) :: HMap.insert t k v from by
        simp [HMap.insert, hk]] at h
      rcases List.mem_cons.1 h with h1 | h1
      · exact .inr (h1 ▸ List.mem_cons_self _ _)
      · rcases HMap.mem_keys_insert t k k' v h1 with h2 | h2
        · exact .inl h2
        · exact .inr (List.mem_cons_of_mem _ h2)

theorem HMap.keys_insert_nodup {K V : Type} [DecidableEq K] :
    ∀ (m : HMap K V) (k : K) (v : V), (HMap.keys m).Nodup →
      (HMap.keys (HMap.insert m k v)).Nodup
  | [], k, v, _ => by simp [HMap.insert, HMap.keys]
  | (k0, w) :: t, k, v, hnd => by
    have hnd' : k0 ∉ HMap.keys t ∧ (HMap.keys t).Nodup := by
      simpa [HMap.keys] using hnd
    by_cases hk : k0 = k
    · subst hk
      simpa [HMap.insert, HMap.keys] using hnd'
    · have hni : k0 ∉ HMap.keys (HMap.insert t k v) := by
        intro hmem
        rcases HMap.mem_keys_insert t k k0 v hmem with h1 | h1
        · exact hk h1
        · exact hnd'.1 h1
      have ih := HMap.keys_insert_nodup t k v hnd'.2
      rw [show HMap.insert ((k0, w) :: t) k v = (k0, w) :: HMap.insert t k v from by
        simp [HMap.insert, hk]]
      exact List.nodup_cons.mpr ⟨hni, ih⟩

theorem HMap.map_insert_existing {K V B : Type} [DecidableEq K]
    (f : K × V → B) :
    ∀ (m : HMap K V) (k : K) (v v' : V), HMap.get? m k = some v →
      f (k, v') = f (k, v) →
      (HMap.insert m k v').map f = m.map f
  | [], k, v, v', hget, _ => by simp [HMap.get?] at hget
  | (k0, w) :: t, k, v, v', hget, hf => by
    by_cases hk : k0 = k
    · subst hk
      simp only [HMap.get?, if_pos rfl] at hget
      have hw : w = v := Option.some.inj hget
      simp [HMap.insert, List.map, hf, hw]
    · simp only [HMap.get?, if_neg hk] at hget
      simp [HMap.insert, hk, List.map,
        HMap.map_insert_existing f t k v v' hget hf]

theorem writePartials_map_struct :
    ∀ (cacheL : List (String × CommitCache)) (disq : List String)
      (mem mem1 : HMap String Member),
      writePartials disq cacheL mem = some mem1 →
      mem1.map (fun p => (p.1, p.2.index)) = mem.map (fun p => (p.1, p.2.index))
  | [], disq, mem, mem1, h => by
    simp only [writePartials] at h
    rw [← Option.some.inj h]
  | (a, cache) :: t, disq, mem, mem1, h => by
    simp only [writePartials] at h
    by_cases hd : disq.contains a
    · rw [if_pos hd] at h
      exact writePartials_map_struct t disq mem mem1 h
    · rw [if_neg hd] at h
      cases hma : HMap.get? mem a with
      | none => rw [hma] at h; exact absurd h (by simp)
      | some m =>
        rw [hma] at h
        have ih := writePartials_map_struct t disq _ mem1 h
        rw [ih, HMap.map_insert_existing (fun p => (p.1, p.2.index)) mem a m
          { m with partial_public_key := cache.partial_public_key } hma (by rfl)]

theorem writePartials_get?_not_mem :
    ∀ (cacheL : List (String × CommitCache)) (disq : List String)
      (mem mem1 : HMap String Member) (b : String),
      writePartials disq cacheL mem = some mem1 →
      b ∉ cacheL.map Prod.fst →
      HMap.get? mem1 b = HMap.get? mem b
  | [], disq, mem, mem1, b, h, _ => by
    simp only [writePartials] at h
    rw [← Option.some.inj h]
  | (a, cache) :: t, disq, mem, mem1, b, h, hb => by
    have hba : a ≠ b := fun he => hb (by simp [he])
    have hbt : b ∉ t.map Prod.fst := fun he => hb (by simp [he])
    simp only [writePartials] at h
    by_cases hd : disq.contains a
    · rw [if_pos hd] at h
      exact writePartials_get?_not_mem t disq mem mem1 b h hbt
    · rw [if_neg hd] at h
      cases hma : HMap.get? mem a with
      | none => rw [hma] at h; exact absurd h (by simp)
      | some m =>
        rw [hma] at h
        rw [writePartials_get?_not_mem t disq _ mem1 b h hbt]
        exact HMap.get?_insert_ne _ _ _ _ hba

theorem writePartials_get?_cached :
    ∀ (cacheL : List (String × CommitCache)) (disq : List String)
      (mem mem1 : HMap String Member),
      writePartials disq cacheL mem = some mem1 →
      (cacheL.map Prod.fst).Nodup →
      ∀ b cc, (b, cc) ∈ cacheL → disq.contains b = false →
        ∃ m1, HMap.get? mem1 b = some m1 ∧
          m1.partial_public_key = cc.partial_public_key
  | [], disq, mem, mem1, h, _, b, cc, hmem, _ => absurd hmem (List.not_mem_nil _)
  | (a, ca) :: t, disq, mem, mem1, h, hnd, b, cc, hmem, hdb => by
    have hnd' : a ∉ t.map Prod.fst ∧ (t.map Prod.fst).Nodup := by
      simpa using hnd
    simp only [writePartials] at h
    rcases List.mem_cons.1 hmem with h1 | h1
    · injection h1 with hba hcc
      subst hba
      subst hcc
      rw [if_neg (fun he => Bool.false_ne_true (hdb ▸ he))] at h
      cases hma : HMap.get? mem b with
      | none => rw [hma] at h; exact absurd h (by simp)
      | some m =>
        rw [hma] at h
        refine ⟨{ m with partial_public_key := cc.partial_public_key }, ?_, rfl⟩
        rw [writePartials_get?_not_mem t disq _ mem1 b h hnd'.1]
        simp [HMap.get?_insert]
    · have hbt : b ∈ t.map Prod.fst := List.mem_map.2 ⟨(b, cc), h1, rfl⟩
      have hba : a ≠ b := fun he => hnd'.1 (he ▸ hbt)
      by_cases hd : disq.contains a
      · rw [if_pos hd] at h
        exact writePartials_get?_cached t disq mem mem1 h hnd'.2 b cc h1 hdb
      · rw [if_neg hd] at h
        cases hma : HMap.get? mem a with
        | none => rw [hma] at h; exact absurd h (by simp)
        | some m =>
          rw [hma] at h
          exact writePartials_get?_cached t disq _ mem1 h hnd'.2 b cc h1 hdb

theorem writePartials_isSome :
    ∀ (cacheL : List (String × CommitCache)) (disq : List String)
      (mem : HMap String Member),
      (∀ q ∈ cacheL, HMap.contains mem q.1 = true) →
      ∃ mem1, writePartials disq cacheL mem = some mem1
  | [], disq, mem, _ => ⟨mem, rfl⟩
  | (a, ca) :: t, disq, mem, hck => by
    simp only [writePartials]
    by_cases hd : disq.contains a
    · rw [if_pos hd]
      exact writePartials_isSome t disq mem (fun q hq => hck q (List.mem_cons_of_mem _ hq))
    · rw [if_neg hd]
      have hca : HMap.contains mem a = true := hck (a, ca) (List.mem_cons_self _ _)
      rcases (HMap.contains_eq_true_iff mem a).1 hca with ⟨m, hm⟩
      rw [hm]
      refine writePartials_isSome t disq _ (fun q hq => ?_)
      rcases (HMap.contains_eq_true_iff mem q.1).1
        (hck q (List.mem_cons_of_mem _ hq)) with ⟨w, hw⟩
      exact (HMap.contains_eq_true_iff _ _).2
        (Option.isSome_iff_exists.1 (HMap.get?_insert_isSome mem a q.1 _ (by simp [hw])))

theorem chooseGo_cons (env : Env) (hash k v : Nat) (t : List Nat) :
    chooseGo env hash (k + 1) (v :: t) =
      match map_to_qualified_indices ((env.hashNat hash) % ((v :: t).length + 1)) (v :: t) with
      | none => none
      | some index =>
        match chooseGo env (env.hashNat hash) k
            (List.filter (fun x => x ≠ index) (v :: t)) with
        | none => none
        | some rest => some (index :: rest) := rfl

theorem chooseGo_isSome (env : Env) :
    ∀ (k hash : Nat) (pool : List Nat), ∃ l, chooseGo env hash k pool = some l
  | 0, _, pool => ⟨[], by simp [chooseGo]⟩
  | _ + 1, _, [] => ⟨[], by simp [chooseGo]⟩
  | k + 1, hash, v :: t => by
    rcases mapToQualified_isSome (v :: t)
      ((env.hashNat hash) % ((v :: t).length + 1)) (by simp) with ⟨x, hx, _⟩
    rcases chooseGo_isSome env k (env.hashNat hash)
      (List.filter (fun y => y ≠ x) (v :: t)) with ⟨rest, hrest⟩
    refine ⟨x :: rest, ?_⟩
    rw [chooseGo_cons, hx]
    dsimp only
    rw [hrest]

theorem length_filter_ne_of_nodup {x : Nat} :
    ∀ {l : List Nat}, l.Nodup → x ∈ l →
      (List.filter (fun y => y ≠ x) l).length = l.length - 1 := by
  intro l
  induction l with
  | nil => intro _ h; exact absurd h (List.not_mem_nil _)
  | cons a t ih =>
    intro hnd hx
    have hnd' : a ∉ t ∧ t.Nodup := by simpa using hnd
    rcases List.mem_cons.1 hx with h1 | h1
    · subst h1
      have hfx : List.filter (fun y => y ≠ x) t = t := by
        apply List.filter_eq_self.mpr
        intro y hy
        simp only [ne_eq, decide_eq_true_eq]
        exact fun he => hnd'.1 (he ▸ hy)
      rw [List.filter_cons, if_neg (by simp), hfx]
      simp
    · have hax : a ≠ x := fun he => hnd'.1 (he ▸ h1)
      have hlen : 1 ≤ t.length := List.length_pos.2 (List.ne_nil_of_mem h1)
      have ih' := ih hnd'.2 h1
      rw [List.filter_cons, if_pos (by simp [hax])]
      simp only [List.length_cons]
      omega

theorem chooseGo_spec (env : Env) :
    ∀ (k hash : Nat) (pool l : List Nat),
      pool.Nodup → chooseGo env hash k pool = some l →
      l.length = min k pool.length ∧ ∀ x ∈ l, x ∈ pool
  | 0, _, pool, l, _, h => by
    simp only [chooseGo] at h
    rw [← Option.some.inj h]
    exact ⟨by simp, by simp⟩
  | _ + 1, _, [], l, _, h => by
    simp only [chooseGo] at h
    rw [← Option.some.inj h]
    exact ⟨by simp, by simp⟩
  | k + 1, hash, v :: t, l, hnd, h => by
    rw [chooseGo_cons] at h
    cases hx : map_to_qualified_indices
        ((env.hashNat hash) % ((v :: t).length + 1)) (v :: t) with
    | none => rw [hx] at h; exact absurd h (by simp)
    | some x =>
      rw [hx] at h
      dsimp only at h
      cases hrest : chooseGo env (env.hashNat hash) k
          (List.filter (fun y => y ≠ x) (v :: t)) with
      | none => rw [hrest] at h; exact absurd h (by simp)
      | some rest =>
        rw [hrest] at h
        have hl : l = x :: rest := (Option.some.inj h).symm
        have hxm : x ∈ v :: t := map_to_qualified_mem _ _ _ hx
        have hndf : (List.filter (fun y => y ≠ x) (v :: t)).Nodup := hnd.filter _
        have ih := chooseGo_spec env k (env.hashNat hash) _ rest hndf hrest
        have hflen := length_filter_ne_of_nodup hnd hxm
        constructor
        · rw [hl]
          have h1 := ih.1
          rw [hflen] at h1
          simp only [List.length_cons] at h1 ⊢
          omega
        · intro y hy
          rw [hl] at hy
          rcases List.mem_cons.1 hy with h1 | h1
          · exact h1 ▸ hxm
          · exact (List.mem_filter.1 (ih.2 y h1)).1

theorem lookupAll_isSome :
    ∀ (m : HMap Nat String) (l : List Nat),
      (∀ i ∈ l, (HMap.get? m i).isSome) →
      ∃ r, lookupAll m l = some r
  | _, [], _ => ⟨[], rfl⟩
  | m, i :: t, h => by
    rcases Option.isSome_iff_exists.1 (h i (List.mem_cons_self _ _)) with ⟨a, ha⟩
    rcases lookupAll_isSome m t (fun j hj => h j (List.mem_cons_of_mem _ hj)) with ⟨r, hr⟩
    refine ⟨a :: r, ?_⟩
    simp only [lookupAll]
    rw [ha, hr]
    rfl

theorem lookupAll_spec :
    ∀ (m : HMap Nat String) (l : List Nat) (r : List String),
      lookupAll m l = some r →
      r.length = l.length ∧ ∀ a ∈ r, ∃ i ∈ l, HMap.get? m i = some a
  | _, [], r, h => by
    simp only [lookupAll] at h
    rw [← Option.some.inj h]
    exact ⟨rfl, by simp⟩
  | m, i :: t, r, h => by
    simp only [lookupAll] at h
    cases ha : HMap.get? m i with
    | none => rw [ha] at h; exact absurd h (by simp)
    | some a =>
      rw [ha] at h
      cases hrec : lookupAll m t with
      | none => rw [hrec] at h; exact absurd h (by simp)
      | some rest =>
        rw [hrec] at h
        simp only [Option.map_some] at h
        have hr : r = a :: rest := (Option.some.inj h).symm
        have ih := lookupAll_spec m t rest hrec
        constructor
        · rw [hr]; simp [ih.1]
        · intro b hb
          rw [hr] at hb
          rcases List.mem_cons.1 hb with h1 | h1
          · exact ⟨i, List.mem_cons_self _ _, h1 ▸ ha⟩
          · rcases ih.2 b h1 with ⟨j, hj, hja⟩
            exact ⟨j, List.mem_cons_of_mem _ hj, hja⟩

theorem indexMap_get?_isSome :
    ∀ (l : List (String × Member)) (acc : HMap Nat String) (i : Nat),
      (i ∈ (HMap.vals l).map (fun m => m.index) ∨ (HMap.get? acc i).isSome) →
      (HMap.get? (l.foldl (fun acc p => HMap.insert acc p.2.index p.1) acc) i).isSome
  | [], acc, i, h => by
    rcases h with h | h
    · simp [HMap.vals] at h
    · exact h
  | p :: t, acc, i, h => by
    apply indexMap_get?_isSome t
    rcases h with h | h
    · have h' : i = p.2.index ∨ i ∈ (HMap.vals t).map (fun m => m.index) := by
        simpa [HMap.vals] using h
      rcases h' with h1 | h1
      · right
        subst h1
        simp [HMap.get?_insert]
      · exact .inl h1
    · exact .inr (HMap.get?_insert_isSome acc p.2.index i p.1 h)

theorem indexMap_get?_mem :
    ∀ (l : List (String × Member)) (acc : HMap Nat String) (i : Nat) (a : String),
      HMap.get? (l.foldl (fun acc p => HMap.insert acc p.2.index p.1) acc) i = some a →
      a ∈ l.map Prod.fst ∨ HMap.get? acc i = some a
  | [], _, _, _, h => .inr h
  | p :: t, acc, i, a, h => by
    rcases indexMap_get?_mem t _ i a h with hl | hr
    · exact .inl (List.mem_cons_of_mem _ hl)
    · by_cases hik : p.2.index = i
      · subst hik
        rw [HMap.get?_insert] at hr
        exact .inl ((Option.some.inj hr) ▸ List.mem_cons_self _ _)
      · rw [HMap.get?_insert_ne _ _ _ _ hik] at hr
        exact .inr hr

/-- Claim C3 as stated: the six invariants hold for every ready group in
every reachable state. -/
def claim_C3_prop : Prop :=
  ∀ (env : Env) (c : Controller), Reachable env c →
    ∀ gi g, HMap.get? c.groups gi = some g → g.state = true →
      g.size = g.members.length ∧
      3 ≤ g.size ∧
      g.threshold = max DEFAULT_MINIMUM_THRESHOLD (minimum_threshold g.size) ∧
      g.committers.length = max DEFAULT_COMMITTERS_SIZE g.threshold ∧
      (∀ a ∈ g.committers, HMap.contains g.members a = true) ∧
      (∀ p ∈ g.members, (p : String × Member).2.partial_public_key ≠ [])

def c3env : Env :=
  { hashNat := fun _ => 0, hashBytes := fun _ => 0, g1Valid := fun _ => true,
    verify := fun _ _ _ => true, evalDecode := fun b => some b }

def c3ops : List Op :=
  [.register "n0" [1], .register "n1" [1], .register "n2" [1], .register "n3" [1],
   .register "n4" [1],
   .commit "n0" 1 3 [2] [7] [], .commit "n1" 1 3 [2] [7] [],
   .commit "n2" 1 3 [2] [7] [], .commit "n3" 1 3 [2] [7] []]

def c3end : Controller := runEnd c3env c3ops (Controller.new 42 "0xctrl")

def c3g : Group := (HMap.get? c3end.groups 1).getD ⟨0, 0, 0, 0, 0, false, [], [], [], []⟩

/-- C3 (counterexample): five nodes register and form a group of five, but
only four of them commit; the fourth commit finalizes the group
(threshold 4), leaving the ready group with member `n4` whose
`partial_public_key` is empty. The claimed reachable-state invariant
"every member's partial_public_key is non-empty" is false. -/
theorem claim_C3_counterexample :
    runOps c3env c3ops (Controller.new 42 "0xctrl") = .ok c3end ∧
    HMap.get? c3end.groups 1 = some c3g ∧ c3g.state = true ∧
    ("n4", (⟨4, "n4", []⟩ : Member)) ∈ c3g.members ∧
    ¬ claim_C3_prop := by
  refine ⟨by decide, by decide, by decide, by decide, ?_⟩
  intro h
  have hr : Reachable c3env c3end :=
    @runOps_reachable c3env c3ops (Controller.new 42 "0xctrl") c3end
      (Reachable.init 42 "0xctrl") (by decide)
  have h2 := (h c3env c3end hr 1 c3g (by decide) (by decide)).2.2.2.2.2
    ("n4", (⟨4, "n4", []⟩ : Member)) (by decide)
  exact h2 rfl

/-- C3 (amended): at a clean finalization the invariants do hold. If a
not-yet-ready, well-formed group (size = member count ≥ 3, threshold =
max(3, ⌈size/2⌉+1), no committers yet, distinct member keys and indices,
max(3, threshold) ≤ member count, distinct commit-cache keys) is finalized
by a commit whose strict-majority class reaches the threshold and
disqualifies nobody, where every cached committer is a member with a
nonempty cached partial public key and every member is cached, then the
resulting ready group satisfies every invariant of the claim: size equals
the member count and stays ≥ 3, the threshold formula is preserved, there
are exactly max(3, threshold) committers, every committer is a member, and
every member's partial public key is nonempty. -/
theorem group_finalization_invariants (env : Env) (c : Controller) (id : String)
    (gi ge : Nat) (pk ppk : Bytes) (g : Group)
    (hg : HMap.get? c.groups gi = some g) (hnr : g.state = false)
    (hpk : env.g1Valid pk = true) (hppk : env.g1Valid ppk = true)
    (hmem : HMap.contains g.members id = true) (hep : g.epoch = ge)
    (hnc : HMap.contains g.commit_cache id = false)
    (hccnd : ((g.commit_cache).map Prod.fst).Nodup)
    (hknd : (HMap.keys g.members).Nodup)
    (hsz : g.size = g.members.length) (h3 : 3 ≤ g.size)
    (hthr : g.threshold = max DEFAULT_MINIMUM_THRESHOLD (minimum_threshold g.size))
    (hcom : g.committers = [])
    (hind : ((HMap.vals g.members).map (fun m => m.index)).Nodup)
    (hcnt : max DEFAULT_COMMITTERS_SIZE g.threshold ≤ g.members.length) :
    ∀ cache', cache' = HMap.insert g.commit_cache id ⟨⟨ge, pk, []⟩, ppk⟩ →
    ∀ r ms, isStrictMajorityClass (groupCommits cache') r ms →
    g.threshold ≤ ms.length →
    r.disqualified_nodes = [] →
    (∀ q ∈ cache', HMap.contains g.members (q : String × CommitCache).1 = true) →
    (∀ q ∈ cache', (q : String × CommitCache).2.partial_public_key ≠ []) →
    (∀ p ∈ g.members, ∃ q ∈ cache', (q : String × CommitCache).1 = (p : String × Member).1) →
    ∃ c' g', commit_dkg env id gi ge pk ppk [] c = .ok (.ok (), c') ∧
      HMap.get? c'.groups gi = some g' ∧
      g'.state = true ∧
      g'.size = g'.members.length ∧
      3 ≤ g'.size ∧
      g'.threshold = max DEFAULT_MINIMUM_THRESHOLD (minimum_threshold g'.size) ∧
      g'.committers.length = max DEFAULT_COMMITTERS_SIZE g'.threshold ∧
      (∀ a ∈ g'.committers, HMap.contains g'.members a = true) ∧
      (∀ p ∈ g'.members, (p : String × Member).2.partial_public_key ≠ []) := by
  intro cache' hcache r ms hmaj hth hrd hck hcppk hcov
  rcases writePartials_isSome cache' r.disqualified_nodes g.members hck with ⟨members1, hwp⟩
  have hstruct := writePartials_map_struct cache' r.disqualified_nodes g.members members1 hwp
  have hidx : (HMap.vals members1).map (fun m => m.index) =
      (HMap.vals g.members).map (fun m => m.index) := by
    have h1 := congrArg (List.map Prod.snd) hstruct
    simpa [HMap.vals, List.map_map, Function.comp_def] using h1
  have hkeys : HMap.keys members1 = HMap.keys g.members := by
    have h1 := congrArg (List.map Prod.fst) hstruct
    simpa [HMap.keys, List.map_map, Function.comp_def] using h1
  have hlen : members1.length = g.members.length := by
    have h1 := congrArg List.length hstruct
    simpa using h1
  rcases chooseGo_isSome env (max DEFAULT_COMMITTERS_SIZE g.threshold) c.last_output
    ((HMap.vals members1).map (fun m => m.index)) with ⟨cis, hch⟩
  have hchspec := chooseGo_spec env (max DEFAULT_COMMITTERS_SIZE g.threshold)
    c.last_output _ cis (by rw [hidx]; exact hind) hch
  have hpool_len : ((HMap.vals members1).map (fun m => m.index)).length =
      g.members.length := by
    simp [HMap.vals, hlen]
  rcases lookupAll_isSome (members1.foldl (fun acc p => HMap.insert acc p.2.index p.1) []) cis
    (fun i hi => indexMap_get?_isSome members1 [] i (.inl (hchspec.2 i hi))) with ⟨ncs, hlk⟩
  have hlkspec := lookupAll_spec _ cis ncs hlk
  have hcore := (commit_dkg_finalize_core env c id gi ge pk ppk [] g hg hnr hpk hppk
    hmem hep hnc cache' hcache).2 r ms hmaj hth
    (by rw [hrd]; exact Nat.zero_le _)
    (by rw [hrd]; exact List.nodup_nil) members1 hwp cis hch ncs hlk
    (by rw [hrd]; intro a ha; exact absurd ha (List.not_mem_nil a))
  rcases hcore with ⟨c', hrun, hgr, _⟩
  have hfilt : members1.filter (fun p => ¬ r.disqualified_nodes.contains p.1) = members1 := by
    rw [hrd]
    exact List.filter_eq_self.mpr (fun p _ => rfl)
  have hcislen : cis.length = max DEFAULT_COMMITTERS_SIZE g.threshold := by
    have h1 := hchspec.1
    rw [hpool_len] at h1
    omega
  have hcnd' : (cache'.map Prod.fst).Nodup := by
    rw [hcache]
    exact HMap.keys_insert_nodup g.commit_cache id _ hccnd
  refine ⟨c', _, hrun, hgr, rfl, ?_, ?_, ?_, ?_, ?_, ?_⟩
  · show g.size - r.disqualified_nodes.length =
      (members1.filter (fun p => ¬ r.disqualified_nodes.contains p.1)).length
    rw [hfilt, hrd, hlen]
    simpa using hsz
  · show 3 ≤ g.size - r.disqualified_nodes.length
    rw [hrd]
    simpa using h3
  · show g.threshold = max DEFAULT_MINIMUM_THRESHOLD
      (minimum_threshold (g.size - r.disqualified_nodes.length))
    rw [hrd]
    simpa using hthr
  · show (g.committers ++ ncs).length = max DEFAULT_COMMITTERS_SIZE g.threshold
    rw [hcom]
    simpa using hlkspec.1.trans hcislen
  · intro a ha
    show HMap.contains (members1.filter (fun p => ¬ r.disqualified_nodes.contains p.1)) a = true
    rw [hfilt]
    have ha' : a ∈ ncs := by
      rw [hcom] at ha
      simpa using ha
    rcases hlkspec.2 a ha' with ⟨i, _, hia⟩
    rcases indexMap_get?_mem members1 [] i a hia with h1 | h1
    · exact HMap.contains_of_mem_keys h1
    · simp [HMap.get?] at h1
  · intro p hp
    have hp1 : p ∈ members1 := by
      rw [hfilt] at hp
      exact hp
    have hpk1 : p.1 ∈ HMap.keys g.members := by
      rw [← hkeys]
      exact List.mem_map.2 ⟨p, hp1, rfl⟩
    rcases (HMap.contains_eq_true_iff g.members p.1).1
      (HMap.contains_of_mem_keys hpk1) with ⟨v, hv⟩
    rcases hcov (p.1, v) (HMap.get?_mem hv) with ⟨q, hq, hq1⟩
    have hqmem : (p.1, q.2) ∈ cache' := by
      have : q = (q.1, q.2) := rfl
      rw [← hq1]
      exact hq
    rcases writePartials_get?_cached cache' r.disqualified_nodes g.members members1
      hwp hcnd' p.1 q.2 hqmem (by rw [hrd]; rfl) with ⟨m1, hm1, hm1ppk⟩
    have hndm1 : (HMap.keys members1).Nodup := by rw [hkeys]; exact hknd
    have hpget : HMap.get? members1 p.1 = some p.2 := by
      rcases p with ⟨p1, p2⟩
      exact HMap.get?_of_mem_nodup hndm1 hp1
    rw [hpget] at hm1
    have : p.2 = m1 := Option.some.inj hm1
    rw [this, hm1ppk]
    exact hcppk q hq


def c3wenv : Env :=
  { hashNat := fun _ => 0, hashBytes := fun _ => 0, g1Valid := fun _ => true,
    verify := fun _ _ _ => true, evalDecode := fun b => some b }

def c3wcommit : CommitCache := ⟨⟨5, [2], []⟩, [7]⟩

def c3wgroup : Group :=
  { index := 1, epoch := 5, capacity := 10, size := 3, threshold := 3, state := false,
    public_key := [],
    members := [("n0", ⟨0, "n0", []⟩), ("n1", ⟨1, "n1", []⟩), ("n2", ⟨2, "n2", []⟩)],
    committers := [], commit_cache := [("n0", c3wcommit), ("n1", c3wcommit)] }

def c3wstate : Controller :=
  { Controller.new 7 "0xctrl" with
      groups := [(1, c3wgroup)],
      nodes := [("n0", ⟨"n0", [9], true, 0, 50000⟩),
                ("n1", ⟨"n1", [9], true, 0, 50000⟩),
                ("n2", ⟨"n2", [9], true, 0, 50000⟩)],
      rewards := [("n0", 0), ("n1", 0), ("n2", 0)] }

/-- C3 (witness): the clean-finalization invariant theorem applied to a
concrete three-member group finalized by its third identical commit. -/
theorem group_finalization_invariants_witness :
    ∃ c' g', commit_dkg c3wenv "n2" 1 5 [2] [7] [] c3wstate = .ok (.ok (), c') ∧
      HMap.get? c'.groups 1 = some g' ∧ g'.state = true ∧
      g'.size = g'.members.length ∧ 3 ≤ g'.size ∧
      g'.threshold = max DEFAULT_MINIMUM_THRESHOLD (minimum_threshold g'.size) ∧
      g'.committers.length = max DEFAULT_COMMITTERS_SIZE g'.threshold ∧
      (∀ a ∈ g'.committers, HMap.contains g'.members a = true) ∧
      (∀ p ∈ g'.members, (p : String × Member).2.partial_public_key ≠ []) :=
  group_finalization_invariants c3wenv c3wstate "n2" 1 5 [2] [7] c3wgroup
    (by decide) (by decide) (by decide) (by decide) (by decide) (by decide) (by decide)
    (by decide) (by decide) (by decide) (by decide) (by decide) (by decide) (by decide)
    (by decide)
    (HMap.insert c3wgroup.commit_cache "n2" ⟨⟨5, [2], []⟩, [7]⟩) rfl
    ⟨5, [2], []⟩ ["n0", "n1", "n2"] ⟨by decide, by decide⟩ (by decide) rfl
    (by decide) (by decide) (by decide)


/-! ## Claim C10: slashing never underflows the staking balance

`slash_node` (`controller.rs` lines 566-582) subtracts the penalty from the
unsigned staking balance with no lower-bound guard. The claim that every
reachable slashing is covered is false: the disqualified-node list of a
majority commitment is attacker-supplied and may repeat one address, so a
single `commit_dkg` finalization can slash the same node once per
occurrence and drive the subtraction below zero. -/

/-- Claim C10 as stated: no controller transaction from a reachable state
panics with a staking underflow. -/
def claim_C10_prop : Prop :=
  ∀ (env : Env) (c : Controller), Reachable env c →
    ∀ op, applyOp env op c ≠ .error .stakingUnderflow

def c10env : Env :=
  { hashNat := fun _ => 0, hashBytes := fun _ => 0, g1Valid := fun _ => true,
    verify := fun _ _ _ => true, evalDecode := fun b => some b }

def c10ops : List Op :=
  ((List.range 51).map (fun i => Op.register ("n" ++ toString i) [1])) ++
  ((List.range 26).map (fun i =>
    Op.commit ("n" ++ toString (i + 1)) 1 49 [2] [7] (List.replicate 51 "n0")))

def c10pre : Controller := runEnd c10env c10ops (Controller.new 42 "0xctrl")

def c10op : Op := .commit "n27" 1 49 [2] [7] (List.replicate 51 "n0")

set_option maxRecDepth 1000000 in
set_option maxHeartbeats 4000000 in
/-- C10 (counterexample): 51 nodes register and form a group of 51
(threshold 27); 26 members commit a commitment whose disqualified list
repeats `"n0"` 51 times; the 27th identical commit reaches the threshold
and finalization slashes `n0` once per occurrence — the 51st subtraction
of 1000 underflows `n0`'s staking of 50000, a reachable panic. -/
theorem claim_C10_counterexample :
    runOps c10env c10ops (Controller.new 42 "0xctrl") = .ok c10pre ∧
    applyOp c10env c10op c10pre = .error .stakingUnderflow ∧
    ¬ claim_C10_prop := by
  have hrun : runOps c10env c10ops (Controller.new 42 "0xctrl") = .ok c10pre := by decide
  have happ : applyOp c10env c10op c10pre = .error .stakingUnderflow := by decide
  exact ⟨hrun, happ, fun h => h c10env c10pre
    (@runOps_reachable c10env c10ops (Controller.new 42 "0xctrl") c10pre
      (Reachable.init 42 "0xctrl") hrun) c10op happ⟩

/-- C10 (amended): `slash_node` subtracts the penalty with no lower-bound
guard: when the slashed node's staking is below the penalty the unsigned
subtraction panics (`stakingUnderflow`), and the panic is reachable; when
the staking covers the penalty the slash succeeds and the staking drops by
exactly the penalty. -/
theorem slash_node_staking_guard (env : Env) (a : String) (pen pb : Nat)
    (hgf : Bool) (c : Controller) (nd : Node)
    (hnd : HMap.get? c.nodes a = some nd) :
    (nd.staking < pen → slash_node env a pen pb hgf c = .error .stakingUnderflow) ∧
    (pen ≤ nd.staking →
      (hgf = true →
        (HMap.vals c.groups).find? (fun g => HMap.contains g.members a) = none) →
      ∃ nd', slash_node env a pen 0 hgf c =
          .ok (.ok (), { c with nodes := HMap.insert c.nodes a nd' }) ∧
        nd'.staking = nd.staking - pen) := by
  constructor
  · intro hlt
    simp only [slash_node, hnd]
    rw [if_pos hlt]
    rfl
  · intro hstk hng
    exact slash_node_char env a pen hgf c nd hnd hstk hng

def c10wstate : Controller :=
  { Controller.new 3 "0xctrl" with nodes := [("x", ⟨"x", [1], true, 0, 5⟩)] }

/-- C10 (witness): a node with staking 5 panics when slashed by 10 and is
slashed down to 3 when slashed by 2. -/
theorem slash_node_staking_guard_witness :
    slash_node c10env "x" 10 0 false c10wstate = .error .stakingUnderflow ∧
    (∃ nd', slash_node c10env "x" 2 0 false c10wstate =
        .ok (.ok (), { c10wstate with nodes := HMap.insert c10wstate.nodes "x" nd' }) ∧
      nd'.staking = (⟨"x", [1], true, 0, 5⟩ : Node).staking - 2) :=
  ⟨(slash_node_staking_guard c10env "x" 10 0 false c10wstate ⟨"x", [1], true, 0, 5⟩
      (by decide)).1 (by decide),
   (slash_node_staking_guard c10env "x" 2 0 false c10wstate ⟨"x", [1], true, 0, 5⟩
      (by decide)).2 (by decide) (fun h => absurd h (by decide))⟩

end Randcast
